import Mathlib

/-!
Shallow embedding of the StegCrypt core (LSB steganography engines, capacity
analysis, crypto envelope framing, payload container, PNG scanline
reconstruction, WAV decoding and depth policy), together with proofs about it.

Conventions used throughout:
* JS byte values (`Uint8Array`, `Uint8ClampedArray` entries) are `Nat` below 256.
* 16-bit audio samples (`Int16Array` entries) are modelled by their
  two's-complement bit patterns, `Nat` below 65536; the JS bitwise operators
  `& | << >>` acting on the low 16 bits coincide with the `Nat` operators on
  the patterns for the bit positions the code touches.
* `ImageData.data` has length `4 * width * height` (RGBA), an invariant of the
  browser `ImageData` type.
* Fallible functions return `Except String` (thrown `Error`s) or `Option`
  (`null` results).
-/

set_option maxRecDepth 4096

namespace StegCrypt

/-! ### Bit-stream utilities shared by the image and audio LSB engines -/

/-- MSB-first bits of one byte: bit `j` of the stream is `(m >> (7-j)) & 1`. -/
def bitsOfByte (m : Nat) : List Nat :=
  (List.range 8).map (fun j => m >>> (7 - j) &&& 1)

/-- MSB-first bit stream of a byte array (the order every embed loop consumes
the framed message in). -/
def bytesToBits (msg : List Nat) : List Nat :=
  msg.flatMap bitsOfByte

/-- Low `d` bits of a carrier cell, MSB-first: the extract loops read
`(value >> bit) & 1` for `bit = d-1` down to `0`. -/
def cellBits (d v : Nat) : List Nat :=
  (List.range d).map (fun i => v >>> (d - 1 - i) &&& 1)

/-- The inner embed loop `for (bit = d-1; bit >= 0 && bitIndex < total; bit--)
value |= nextBit << bit`: OR up to `k` pending bits into `acc` at positions
`k-1` down to `0`, returning the new value and the unconsumed bits. -/
def setLow : Nat → List Nat → Nat → Nat × List Nat
  | 0, bits, acc => (acc, bits)
  | _ + 1, [], acc => (acc, [])
  | k + 1, b :: rest, acc => setLow k rest (acc ||| b <<< k)

/-- Reassemble the byte at stream positions `start .. start+7`, MSB first
(`byte |= bit << (7 - j)`); a read past the end of the stream contributes 0,
matching the guarded reads of the extract loops. -/
def byteAt (bits : List Nat) (start : Nat) : Nat :=
  (List.range 8).foldl (fun acc j => acc ||| bits.getD (start + j) 0 <<< (7 - j)) 0

/-- Big-endian u32 length bytes `(len >> 24) & 0xFF, ...` as written by both
embedders (exact for `len < 2^32`, the ArrayBuffer length range). -/
def lenBytesBE (len : Nat) : List Nat :=
  [len >>> 24 &&& 255, len >>> 16 &&& 255, len >>> 8 &&& 255, len &&& 255]

/-- `"STEG"`. -/
def MAGIC_HEADER : List Nat := [0x53, 0x54, 0x45, 0x47]

/-- The framed message both engines embed: MAGIC (4) + LENGTH (4, big endian)
+ DATA. -/
def mkMessage (payload : List Nat) : List Nat :=
  MAGIC_HEADER ++ lenBytesBE payload.length ++ payload

/-- JS `ToInt32` reinterpretation of an unsigned value (the result of a chain
of 32-bit bitwise operators). -/
def toInt32 (n : Nat) : Int :=
  if n % 4294967296 < 2147483648 then ((n % 4294967296 : Nat) : Int)
  else ((n % 4294967296 : Nat) : Int) - 4294967296

/-! ### Image LSB engine (steganography.ts) -/

/-- Browser `ImageData`: RGBA raster, `data.length = 4 * width * height`. -/
structure ImageData where
  width : Nat
  height : Nat
  data : List Nat
  deriving Repr, DecidableEq

/-- `analyzeImageCapacity`: usable bits are `W*H * (3*d)`; the returned
`maxCapacityBytes` is `Math.max(0, floor(bits/8) - 8)`. -/
def analyzeImageCapacity (img : ImageData) (d : Nat) : Int :=
  max 0 ((img.width * img.height * (3 * d) / 8 : Nat) - 8 : Int)

/-- One channel of the embed loop: clear the low `d` bits
(`value & (0xFF << d)`) then OR in the next (up to) `d` message bits. -/
def embedChannel (d v : Nat) (bits : List Nat) : Nat × List Nat :=
  setLow d bits (v &&& 255 <<< d)

/-- The pixel loop of `embedData`/`embedImageData`: while message bits remain,
process R, G, B of each 4-byte RGBA group and force alpha to 255; once the
bits are exhausted the remaining bytes are returned unchanged.  (`ImageData`
guarantees the byte count is a multiple of 4, so the ragged fallthrough case
is never reached on real inputs.) -/
def embedPixels (d : Nat) : List Nat → List Nat → List Nat
  | [], pixels => pixels
  | bits, r :: g :: b :: _a :: rest =>
    let rb := embedChannel d r bits
    let gb := embedChannel d g rb.2
    let bb := embedChannel d b gb.2
    rb.1 :: gb.1 :: bb.1 :: 255 :: embedPixels d bb.2 rest
  | _, pixels => pixels

/-- `embedData`: frame the payload, check capacity
(`neededBits > availableBits` throws), then embed. -/
def embedData (img : ImageData) (payload : List Nat) (d : Nat) :
    Except String ImageData :=
  let message := mkMessage payload
  let messageLength := 8 + payload.length
  let usablePixels := img.width * img.height * 3
  let availableBits := usablePixels * d
  let neededBits := messageLength * 8
  if neededBits > availableBits then
    .error s!"Payload too large. Need {neededBits} bits, have {availableBits}"
  else
    .ok { img with data := embedPixels d (bytesToBits message) img.data }

/-- The bit-collection loop of `extractData`: low `d` bits of R, G, B of every
4-byte RGBA group, MSB-first. -/
def extractBitsImage (d : Nat) : List Nat → List Nat
  | r :: g :: b :: _a :: rest =>
    cellBits d r ++ cellBits d g ++ cellBits d b ++ extractBitsImage d rest
  | _ => []

/-- `extractData`: collect the LSB stream, check the `"STEG"` magic, read the
big-endian length (a chain of JS int32 `(len << 8) | byte` steps, hence the
`toInt32` sanity comparison), sanity-check it against the available bits and
reassemble the payload. -/
def extractData (img : ImageData) (d : Nat) : Option (List Nat) :=
  let usableChannels := img.width * img.height * 3
  let maxBits := usableChannels * d
  if maxBits < 64 then none
  else
    let extractedBits := extractBitsImage d img.data
    if extractedBits.length < 64 then none
    else if ¬ (byteAt extractedBits 0 = 0x53 ∧ byteAt extractedBits 8 = 0x54 ∧
        byteAt extractedBits 16 = 0x45 ∧ byteAt extractedBits 24 = 0x47) then none
    else
      let payloadLength :=
        ((byteAt extractedBits 32 <<< 8 ||| byteAt extractedBits 40) <<< 8 |||
          byteAt extractedBits 48) <<< 8 ||| byteAt extractedBits 56
      let maxPayloadBytes := (extractedBits.length - 64) / 8
      if toInt32 payloadLength ≤ 0 ∨ (maxPayloadBytes : Int) < toInt32 payloadLength then
        none
      else
        some ((List.range payloadLength).map (fun i => byteAt extractedBits (64 + 8 * i)))

/-! ### Audio LSB engine (wav-codec.ts) -/

/-- Decoded WAV carrier; `samples` holds the two's-complement bit patterns of
the interleaved `Int16` samples. -/
structure WavData where
  samples : List Nat
  sampleRate : Nat
  channels : Nat
  bitsPerSample : Nat
  deriving Repr, DecidableEq

/-- `analyzeWavCapacity`: `maxCapacityBytes = Math.max(0, floor(N*d/8) - 8)`. -/
def analyzeWavCapacity (wav : WavData) (d : Nat) : Int :=
  max 0 ((wav.samples.length * d / 8 : Nat) - 8 : Int)

/-- One sample of the audio embed loop: `(sample & (0xFFFF << d)) | bits`
on the 16-bit pattern. -/
def embedSample (d p : Nat) (bits : List Nat) : Nat × List Nat :=
  setLow d bits (p &&& 65535 <<< d)

/-- The sample loop of `embedWavData`; samples after the message are
unchanged. -/
def embedSamples (d : Nat) : List Nat → List Nat → List Nat
  | [], samples => samples
  | _, [] => []
  | bits, p :: rest =>
    let pb := embedSample d p bits
    pb.1 :: embedSamples d pb.2 rest

/-- `embedWavData`: frame, check capacity, embed. -/
def embedWavData (wav : WavData) (payload : List Nat) (d : Nat) :
    Except String WavData :=
  let fullMessage := mkMessage payload
  let bits := bytesToBits fullMessage
  let availableBits := wav.samples.length * d
  if bits.length > availableBits then
    .error s!"Payload too large. Need {bits.length} bits, have {availableBits}"
  else
    .ok { wav with samples := embedSamples d bits wav.samples }

/-- `extractWavData`: collect the LSB stream of every sample, check magic,
read the length with `DataView.getUint32(_, false)` (true unsigned big-endian
recomposition), sanity-check, reassemble. -/
def extractWavData (wav : WavData) (d : Nat) : Option (List Nat) :=
  let totalBits := wav.samples.length * d
  if totalBits < 64 then none
  else
    let bits := wav.samples.flatMap (cellBits d)
    if ¬ (byteAt bits 0 = 0x53 ∧ byteAt bits 8 = 0x54 ∧
        byteAt bits 16 = 0x45 ∧ byteAt bits 24 = 0x47) then none
    else
      let payloadLength :=
        byteAt bits 32 * 16777216 + byteAt bits 40 * 65536 +
          byteAt bits 48 * 256 + byteAt bits 56
      let maxPossibleBytes := (bits.length - 64) / 8
      if payloadLength = 0 ∨ payloadLength > maxPossibleBytes then none
      else
        some ((List.range payloadLength).map (fun i => byteAt bits (64 + 8 * i)))

/-! ### Bit-level lemmas about the embed loops -/

theorem setLow_snd (k : Nat) (bits : List Nat) (acc : Nat) :
    (setLow k bits acc).2 = bits.drop k := by
  induction k generalizing bits acc with
  | zero => simp [setLow]
  | succ k ih =>
    cases bits with
    | nil => simp [setLow]
    | cons b rest => simp [setLow, ih]

theorem setLow_testBit (k : Nat) (bits : List Nat) (acc : Nat)
    (hb : ∀ b ∈ bits, b ≤ 1) (hacc : ∀ j, j < k → acc.testBit j = false) (i : Nat) :
    (setLow k bits acc).1.testBit i =
      if i < k ∧ k - 1 - i < bits.length then decide (bits.getD (k - 1 - i) 0 = 1)
      else acc.testBit i := by
  induction k generalizing bits acc with
  | zero => simp [setLow]
  | succ k ih =>
    cases bits with
    | nil => simp [setLow]
    | cons b rest =>
      have hb' : ∀ x ∈ rest, x ≤ 1 := fun x hx => hb x (List.mem_cons_of_mem _ hx)
      have hbb : b ≤ 1 := hb b (List.mem_cons_self b rest)
      have hacc' : ∀ j, j < k → (acc ||| b <<< k).testBit j = false := by
        intro j hj
        simp [Nat.testBit_lor, Nat.testBit_shiftLeft, hacc j (Nat.lt_succ_of_lt hj),
          Nat.not_le.mpr hj]
      rw [setLow, ih rest _ hb' hacc']
      rcases Nat.lt_trichotomy i k with hik | hik | hik
      · by_cases hlen : k - 1 - i < rest.length
        · rw [if_pos ⟨hik, hlen⟩, if_pos (by simp only [List.length_cons]; omega)]
          have he : k + 1 - 1 - i = (k - 1 - i) + 1 := by omega
          rw [he, List.getD_cons_succ]
        · rw [if_neg (by omega), if_neg (by simp only [List.length_cons]; omega)]
          simp [Nat.testBit_lor, Nat.testBit_shiftLeft, Nat.not_le.mpr hik]
      · rw [if_neg (by omega), if_pos (by simp only [List.length_cons]; omega)]
        have he0 : k + 1 - 1 - i = 0 := by omega
        rw [he0, List.getD_cons_zero]
        simp only [Nat.testBit_lor, Nat.testBit_shiftLeft, hacc i (by omega)]
        simp only [hik]
        simp only [Nat.le_refl, decide_True, Bool.true_and, Nat.sub_self,
          Bool.false_or]
        interval_cases b <;> simp
      · rw [if_neg (by omega), if_neg (by omega)]
        simp only [Nat.testBit_lor, Nat.testBit_shiftLeft]
        have h1 : b.testBit (i - k) = false :=
          Nat.testBit_eq_false_of_lt (by
            calc b < 2 := by omega
            _ ≤ 2 ^ (i - k) := by
              have : 1 ≤ i - k := by omega
              calc (2 : Nat) = 2 ^ 1 := rfl
              _ ≤ 2 ^ (i - k) := Nat.pow_le_pow_right (by omega) this)
        simp [h1]

theorem mask_shift_testBit_low (m v d j : Nat) (hj : j < d) :
    (v &&& m <<< d).testBit j = false := by
  simp [Nat.testBit_land, Nat.testBit_shiftLeft, Nat.not_le.mpr hj]

/-- Reading back the low `d` bits of an embedded cell returns the pending bits
(zero-padded when fewer than `d` remained). -/
theorem cellBits_setLow (d v m : Nat) (bits : List Nat) (hb : ∀ b ∈ bits, b ≤ 1) :
    cellBits d (setLow d bits (v &&& m <<< d)).1 =
      (List.range d).map (fun i => bits.getD i 0) := by
  apply List.ext_getElem
  · simp [cellBits]
  intro i h1 h2
  have hi : i < d := by simpa [cellBits] using h1
  simp only [cellBits, List.getElem_map, List.getElem_range]
  have ht := setLow_testBit d bits (v &&& m <<< d) hb
    (fun j hj => mask_shift_testBit_low m v d j hj) (d - 1 - i)
  have he : d - 1 - (d - 1 - i) = i := by omega
  rw [he] at ht
  have hval : ∀ x : Nat, x >>> (d - 1 - i) &&& 1 = (x.testBit (d - 1 - i)).toNat := by
    intro x
    rw [Nat.and_one_is_mod, Nat.shiftRight_eq_div_pow]
    have := @Nat.testBit_to_div_mod (d - 1 - i) x
    rcases Nat.mod_two_eq_zero_or_one (x / 2 ^ (d - 1 - i)) with h | h <;>
      simp [this, h]
  rw [hval, ht]
  by_cases hlen : i < bits.length
  · rw [if_pos ⟨by omega, hlen⟩]
    have hmem : bits.getD i 0 ∈ bits := by
      rw [List.getD_eq_getElem bits 0 hlen]; exact List.getElem_mem hlen
    have : bits.getD i 0 ≤ 1 := hb _ hmem
    interval_cases h : bits.getD i 0 <;> simp [h]
  · rw [if_neg (by omega), mask_shift_testBit_low m v d (d - 1 - i) (by omega),
      List.getD_eq_default bits 0 (by omega)]
    simp

theorem embedChannel_fst (d v : Nat) (bits : List Nat) (hb : ∀ b ∈ bits, b ≤ 1) :
    cellBits d (embedChannel d v bits).1 =
      (List.range d).map (fun i => bits.getD i 0) :=
  cellBits_setLow d v 255 bits hb

theorem embedChannel_snd (d v : Nat) (bits : List Nat) :
    (embedChannel d v bits).2 = bits.drop d :=
  setLow_snd d bits _

theorem embedSample_fst (d p : Nat) (bits : List Nat) (hb : ∀ b ∈ bits, b ≤ 1) :
    cellBits d (embedSample d p bits).1 =
      (List.range d).map (fun i => bits.getD i 0) :=
  cellBits_setLow d p 65535 bits hb

theorem embedSample_snd (d p : Nat) (bits : List Nat) :
    (embedSample d p bits).2 = bits.drop d :=
  setLow_snd d bits _

/-- The `d`-bit read-back of a cell, as a prefix of the pending bit stream. -/
theorem rangeMap_getD_eq (d : Nat) (bits : List Nat) :
    (List.range d).map (fun i => bits.getD i 0) =
      bits.take d ++ List.replicate (d - bits.length) 0 := by
  apply List.ext_getElem
  · simp [List.length_take]; omega
  intro i h1 h2
  have hi : i < d := by simpa using h1
  simp only [List.getElem_map, List.getElem_range]
  by_cases hlen : i < bits.length
  · have htake : i < (bits.take d).length := by simp [List.length_take]; omega
    rw [List.getElem_append_left htake]
    have hq : (bits.take d)[i]? = bits[i]? := List.getElem?_take_of_lt (by omega)
    rw [List.getElem?_eq_getElem htake, List.getElem?_eq_getElem hlen] at hq
    rw [Option.some.inj hq, List.getD_eq_getElem bits 0 hlen]
  · have hge : (bits.take d).length ≤ i := by simp [List.length_take]; omega
    rw [List.getElem_append_right hge]
    rw [List.getD_eq_default bits 0 (show bits.length ≤ i by omega)]
    simp

/-! ### Stream-level lemmas: embedding writes the message bits as a prefix of
the extractable LSB stream -/

theorem embedPixels_length (d : Nat) (bits pixels : List Nat) :
    (embedPixels d bits pixels).length = pixels.length := by
  induction bits, pixels using embedPixels.induct d with
  | case1 pixels => simp [embedPixels]
  | case2 bits r g b a rest hne rb gb bb ih =>
    rw [embedPixels]
    · simp only [List.length_cons]
      exact congrArg (fun n => n + 1 + 1 + 1 + 1) ih
    · exact hne
  | case3 bits pixels h1 h2 =>
    match bits, pixels, h2 with
    | _ :: _, [], _ => simp [embedPixels]
    | _ :: _, [_], _ => simp [embedPixels]
    | _ :: _, [_, _], _ => simp [embedPixels]
    | _ :: _, [_, _, _], _ => simp [embedPixels]
    | _ :: _, r :: g :: b :: a :: rest, h => exact absurd rfl (h r g b a rest)

theorem extractBitsImage_length (d : Nat) (pixels : List Nat) :
    (extractBitsImage d pixels).length = 3 * d * (pixels.length / 4) := by
  induction pixels using extractBitsImage.induct d with
  | case1 r g b a rest ih =>
    rw [extractBitsImage]
    simp only [List.length_append, List.length_map, cellBits, List.length_range, ih,
      List.length_cons]
    have hq : (rest.length + 1 + 1 + 1 + 1) / 4 = rest.length / 4 + 1 := by omega
    rw [hq]; ring
  | case2 pixels h =>
    match pixels, h with
    | [], _ => simp [extractBitsImage]
    | [_], _ => simp [extractBitsImage]
    | [_, _], _ => simp [extractBitsImage]
    | [_, _, _], _ => simp [extractBitsImage]
    | r :: g :: b :: a :: rest, h => exact absurd rfl (h r g b a rest)

/-- Absorption step: one embedded cell's read-back followed by anything that
extends the rest of the bit stream yields the whole stream as a prefix. -/
theorem cell_absorb (bits X : List Nat) (d : Nat) (h : ∃ t, X = bits.drop d ++ t) :
    ∃ t, (bits.take d ++ List.replicate (d - bits.length) 0) ++ X = bits ++ t := by
  obtain ⟨t, rfl⟩ := h
  by_cases hlb : bits.length ≤ d
  · refine ⟨List.replicate (d - bits.length) 0 ++ (bits.drop d ++ t), ?_⟩
    rw [List.take_of_length_le hlb]
    simp [List.append_assoc]
  · have hz : d - bits.length = 0 := by omega
    rw [hz, List.replicate_zero, List.append_nil]
    exact ⟨t, by rw [← List.append_assoc, List.take_append_drop]⟩

/-- The extractable LSB stream of an embedded image starts with exactly the
embedded message bits. -/
theorem extractBits_embedPixels (d : Nat) (bits pixels : List Nat) :
    (∀ b ∈ bits, b ≤ 1) → bits.length ≤ 3 * d * (pixels.length / 4) →
    ∃ tail, extractBitsImage d (embedPixels d bits pixels) = bits ++ tail := by
  induction bits, pixels using embedPixels.induct d with
  | case1 pixels =>
    exact fun _ _ => ⟨extractBitsImage d pixels, by rw [embedPixels, List.nil_append]⟩
  | case2 bits r g b a rest hne rb gb bb ih =>
    intro hb hlen
    have hrb : (embedChannel d r bits).2 = bits.drop d := embedChannel_snd d r bits
    have hbb :
        (embedChannel d b (embedChannel d g (embedChannel d r bits).2).2).2 =
          bits.drop (d + d + d) := by
      rw [embedChannel_snd, embedChannel_snd, hrb, List.drop_drop, List.drop_drop]
      congr 1; omega
    have hb3 : ∀ x ∈ bits.drop (d + d + d), x ≤ 1 :=
      fun x hx => hb x (List.mem_of_mem_drop hx)
    have hlen3 : (bits.drop (d + d + d)).length ≤ 3 * d * (rest.length / 4) := by
      rw [List.length_drop]
      have hq : (rest.length + 1 + 1 + 1 + 1) / 4 = rest.length / 4 + 1 := by omega
      rw [List.length_cons, List.length_cons, List.length_cons, List.length_cons,
        hq] at hlen
      have hx : 3 * d * (rest.length / 4 + 1) = 3 * d * (rest.length / 4) + 3 * d := by
        ring
      rw [hx] at hlen
      omega
    obtain ⟨t, ht⟩ := by
      refine ih ?_ ?_
      · rw [hbb]; exact hb3
      · rw [hbb]; exact hlen3
    have hmain :
        ∃ tail, extractBitsImage d
          (embedPixels d (embedChannel d b
            (embedChannel d g (embedChannel d r bits).2).2).2 rest) =
          bits.drop (d + d + d) ++ tail := ⟨t, by rw [hbb] at ht ⊢; exact ht⟩
    obtain ⟨t0, ht0⟩ := hmain
    have goal2 :
        ∃ tail,
          extractBitsImage d (embedPixels d bits (r :: g :: b :: a :: rest)) =
            bits ++ tail := by
      rw [embedPixels]
      case x_2 => exact hne
      rw [extractBitsImage]
      rw [embedChannel_fst d r bits (fun x hx => hb x hx), rangeMap_getD_eq]
      rw [show (embedChannel d r bits).2 = bits.drop d from hrb]
      rw [embedChannel_fst d g (bits.drop d)
        (fun x hx => hb x (List.mem_of_mem_drop hx)), rangeMap_getD_eq]
      rw [show (embedChannel d g (bits.drop d)).2 = bits.drop (d + d) by
        rw [embedChannel_snd, List.drop_drop]]
      rw [embedChannel_fst d b (bits.drop (d + d))
        (fun x hx => hb x (List.mem_of_mem_drop hx)), rangeMap_getD_eq]
      have hrw : (embedChannel d b (bits.drop (d + d))).2 = bits.drop (d + d + d) := by
        rw [embedChannel_snd, List.drop_drop]
      have ht0' :
          extractBitsImage d
            (embedPixels d (embedChannel d b (bits.drop (d + d))).2 rest) =
            bits.drop (d + d + d) ++ t0 := by
        have : (embedChannel d b (bits.drop (d + d))).2 =
            (embedChannel d b (embedChannel d g (embedChannel d r bits).2).2).2 := by
          rw [hrw, hbb]
        rw [this]
        exact ht0
      rw [ht0']
      rw [List.append_assoc, List.append_assoc]
      have s3 : ∃ t3, bits.drop (d + d + d) ++ t0 = (bits.drop (d + d)).drop d ++ t3 :=
        ⟨t0, by rw [List.drop_drop]⟩
      obtain ⟨t4, ht4⟩ := cell_absorb (bits.drop (d + d)) _ d s3
      have s1 : ∃ t5,
          (bits.drop (d + d)).take d ++
              List.replicate (d - (bits.drop (d + d)).length) 0 ++
            (bits.drop (d + d + d) ++ t0) = (bits.drop d).drop d ++ t5 :=
        ⟨t4, by rw [List.drop_drop]; exact ht4⟩
      obtain ⟨t6, ht6⟩ := cell_absorb (bits.drop d) _ d s1
      exact cell_absorb bits _ d ⟨t6, ht6⟩
    exact goal2
  | case3 bits pixels h1 h2 =>
    intro _ hlen
    match bits, pixels, h1, h2, hlen with
    | b :: bs, [], _, _, hlen => exact absurd hlen (by simp)
    | b :: bs, [_], _, _, hlen => exact absurd hlen (by simp)
    | b :: bs, [_, _], _, _, hlen => exact absurd hlen (by simp)
    | b :: bs, [_, _, _], _, _, hlen => exact absurd hlen (by simp)
    | _, r :: g :: b :: a :: rest, _, h, _ => exact absurd rfl (h r g b a rest)

/-! ### Byte reassembly lemmas -/

theorem getD_append_left_nat (xs ys : List Nat) (n : Nat) (h : n < xs.length) :
    (xs ++ ys).getD n 0 = xs.getD n 0 := by
  simp [List.getD_eq_getElem?_getD, List.getElem?_append_left h]

theorem getD_append_right_nat (xs ys : List Nat) (n : Nat) (h : xs.length ≤ n) :
    (xs ++ ys).getD n 0 = ys.getD (n - xs.length) 0 := by
  simp [List.getD_eq_getElem?_getD, List.getElem?_append_right h]

theorem byteAt_append_left (xs ys : List Nat) (start : Nat) (h : start + 8 ≤ xs.length) :
    byteAt (xs ++ ys) start = byteAt xs start := by
  have e : ∀ j, j < 8 → (xs ++ ys).getD (start + j) 0 = xs.getD (start + j) 0 :=
    fun j hj => getD_append_left_nat xs ys (start + j) (by omega)
  simp only [byteAt, show List.range 8 = [0, 1, 2, 3, 4, 5, 6, 7] from rfl, List.foldl]
  rw [e 0 (by omega), e 1 (by omega), e 2 (by omega), e 3 (by omega), e 4 (by omega),
    e 5 (by omega), e 6 (by omega), e 7 (by omega)]

theorem byteAt_append_right (xs ys : List Nat) (k : Nat) :
    byteAt (xs ++ ys) (xs.length + k) = byteAt ys k := by
  have e : ∀ j, (xs ++ ys).getD (xs.length + k + j) 0 = ys.getD (k + j) 0 := by
    intro j
    rw [getD_append_right_nat xs ys _ (by omega)]
    congr 1
    omega
  simp only [byteAt, show List.range 8 = [0, 1, 2, 3, 4, 5, 6, 7] from rfl, List.foldl]
  rw [e 0, e 1, e 2, e 3, e 4, e 5, e 6, e 7]

theorem byteAt_bitsOfByte : ∀ m, m < 256 → byteAt (bitsOfByte m) 0 = m := by decide

theorem length_bitsOfByte (m : Nat) : (bitsOfByte m).length = 8 := by
  simp [bitsOfByte]

theorem bytesToBits_length (msg : List Nat) :
    (bytesToBits msg).length = 8 * msg.length := by
  induction msg with
  | nil => simp [bytesToBits]
  | cons m ms ih =>
    simp only [bytesToBits, List.flatMap_cons, List.length_append, length_bitsOfByte,
      List.length_cons] at ih ⊢
    omega

theorem bytesToBits_le_one (msg : List Nat) : ∀ b ∈ bytesToBits msg, b ≤ 1 := by
  intro b hb
  simp only [bytesToBits] at hb
  obtain ⟨m, _, hmem⟩ := List.mem_flatMap.mp hb
  obtain ⟨j, _, rfl⟩ := List.mem_map.mp hmem
  exact Nat.and_le_right

/-- Reassembling byte `i` of the embedded stream returns byte `i` of the
message. -/
theorem byteAt_bytesToBits (msg : List Nat) (tail : List Nat) (i : Nat)
    (hbyte : ∀ b ∈ msg, b < 256) (hi : i < msg.length) :
    byteAt (bytesToBits msg ++ tail) (8 * i) = msg.getD i 0 := by
  induction msg generalizing i tail with
  | nil => simp at hi
  | cons m ms ih =>
    have hsplit : bytesToBits (m :: ms) = bitsOfByte m ++ bytesToBits ms := by
      simp [bytesToBits]
    cases i with
    | zero =>
      rw [hsplit, List.append_assoc]
      rw [show 8 * 0 = 0 from rfl]
      rw [byteAt_append_left _ _ 0 (by rw [length_bitsOfByte])]
      rw [byteAt_bitsOfByte m (hbyte m (List.mem_cons_self m ms))]
      rfl
    | succ i' =>
      rw [hsplit, List.append_assoc]
      rw [show 8 * (i' + 1) = (bitsOfByte m).length + 8 * i' by
        rw [length_bitsOfByte]; ring]
      rw [byteAt_append_right]
      rw [List.getD_cons_succ]
      exact ih tail i' (fun b hb => hbyte b (List.mem_cons_of_mem m hb)) (by
        simpa using hi)

theorem shiftLeft_lor_eq (a b : Nat) (hb : b < 256) : a <<< 8 ||| b = a * 256 + b := by
  rw [Nat.shiftLeft_eq]
  calc a * 2 ^ 8 ||| b = 2 ^ 8 * a ||| b := by rw [Nat.mul_comm]
    _ = 2 ^ 8 * a + b := (Nat.mul_add_lt_is_or (by exact hb) a).symm
    _ = a * 256 + b := by ring

/-- The image extractor's `(len << 8) | byte` chain recomposes the big-endian
length bytes. -/
theorem lenBytesBE_recompose (L : Nat) (hL : L < 4294967296) :
    (((L >>> 24 &&& 255) <<< 8 ||| (L >>> 16 &&& 255)) <<< 8 |||
      (L >>> 8 &&& 255)) <<< 8 ||| (L &&& 255) = L := by
  have h255 : (255 : Nat) = 2 ^ 8 - 1 := rfl
  simp only [h255, Nat.and_pow_two_sub_one_eq_mod, Nat.shiftRight_eq_div_pow]
  have e1 := shiftLeft_lor_eq (L / 2 ^ 24 % 2 ^ 8) (L / 2 ^ 16 % 2 ^ 8) (by omega)
  rw [e1]
  have e2 := shiftLeft_lor_eq (L / 2 ^ 24 % 2 ^ 8 * 256 + L / 2 ^ 16 % 2 ^ 8)
    (L / 2 ^ 8 % 2 ^ 8) (by omega)
  rw [e2]
  have e3 := shiftLeft_lor_eq
    ((L / 2 ^ 24 % 2 ^ 8 * 256 + L / 2 ^ 16 % 2 ^ 8) * 256 + L / 2 ^ 8 % 2 ^ 8)
    (L % 2 ^ 8) (by omega)
  rw [e3]
  omega

theorem toInt32_of_lt (n : Nat) (h : n < 2147483648) : toInt32 n = n := by
  have : n % 4294967296 = n := Nat.mod_eq_of_lt (by omega)
  simp [toInt32, this, h]

/-! ### Facts about the framed message -/

theorem mkMessage_length (payload : List Nat) :
    (mkMessage payload).length = 8 + payload.length := by
  simp [mkMessage, MAGIC_HEADER, lenBytesBE]
  omega

theorem mkMessage_lt_256 (payload : List Nat) (h : ∀ b ∈ payload, b < 256) :
    ∀ b ∈ mkMessage payload, b < 256 := by
  intro b hb
  have h24 : payload.length >>> 24 &&& 255 ≤ 255 := Nat.and_le_right
  have h16 : payload.length >>> 16 &&& 255 ≤ 255 := Nat.and_le_right
  have h8 : payload.length >>> 8 &&& 255 ≤ 255 := Nat.and_le_right
  have h0 : payload.length &&& 255 ≤ 255 := Nat.and_le_right
  simp only [mkMessage, MAGIC_HEADER, lenBytesBE, List.append_assoc, List.mem_append,
    List.mem_cons, List.not_mem_nil, or_false] at hb
  rcases hb with (rfl | rfl | rfl | rfl) | (rfl | rfl | rfl | rfl) | h1
  all_goals first | omega | exact h b h1

theorem mkMessage_getD_payload (payload : List Nat) (i : Nat) :
    (mkMessage payload).getD (8 + i) 0 = payload.getD i 0 := by
  simp only [mkMessage, MAGIC_HEADER, lenBytesBE, List.cons_append, List.nil_append]
  rw [show 8 + i = i + 1 + 1 + 1 + 1 + 1 + 1 + 1 + 1 by omega]
  simp [List.getD_cons_succ]

theorem mkMessage_getD_magic0 (payload : List Nat) : (mkMessage payload).getD 0 0 = 0x53 := rfl
theorem mkMessage_getD_magic1 (payload : List Nat) : (mkMessage payload).getD 1 0 = 0x54 := rfl
theorem mkMessage_getD_magic2 (payload : List Nat) : (mkMessage payload).getD 2 0 = 0x45 := rfl
theorem mkMessage_getD_magic3 (payload : List Nat) : (mkMessage payload).getD 3 0 = 0x47 := rfl

theorem mkMessage_getD_len0 (payload : List Nat) :
    (mkMessage payload).getD 4 0 = payload.length >>> 24 &&& 255 := rfl
theorem mkMessage_getD_len1 (payload : List Nat) :
    (mkMessage payload).getD 5 0 = payload.length >>> 16 &&& 255 := rfl
theorem mkMessage_getD_len2 (payload : List Nat) :
    (mkMessage payload).getD 6 0 = payload.length >>> 8 &&& 255 := rfl
theorem mkMessage_getD_len3 (payload : List Nat) :
    (mkMessage payload).getD 7 0 = payload.length &&& 255 := rfl

/-! ### Image engine round trip -/

/-- Embedding a nonempty payload that fits the bit capacity and extracting at
the same depth recovers it exactly. -/
theorem image_roundtrip (img : ImageData) (M : List Nat) (d : Nat)
    (h4 : img.data.length = 4 * (img.width * img.height))
    (hbyte : ∀ b ∈ M, b < 256)
    (hM : M ≠ []) (hL : M.length < 2147483648)
    (hcap : (8 + M.length) * 8 ≤ img.width * img.height * 3 * d) :
    ∃ out, embedData img M d = .ok out ∧ extractData out d = some M := by
  have hX : 64 + 8 * M.length ≤ img.width * img.height * 3 * d := by omega
  have hX2 : 64 + 8 * M.length ≤ 3 * d * (img.width * img.height) := by
    have e : 3 * d * (img.width * img.height) = img.width * img.height * 3 * d := by
      ring
    rw [e]; exact hX
  have hMpos : 0 < M.length := List.length_pos.mpr hM
  refine ⟨⟨img.width, img.height, embedPixels d (bytesToBits (mkMessage M)) img.data⟩,
    ?_, ?_⟩
  · simp only [embedData]
    rw [if_neg (by omega)]
  · -- the embedded bit stream is a prefix of the extracted stream
    have hlen4 : img.data.length / 4 = img.width * img.height := by rw [h4]; omega
    obtain ⟨tail, htail⟩ := extractBits_embedPixels d (bytesToBits (mkMessage M))
      img.data (bytesToBits_le_one _)
      (by rw [bytesToBits_length, mkMessage_length, hlen4]; omega)
    have hmsg256 := mkMessage_lt_256 M hbyte
    have hmsglen : (mkMessage M).length = 8 + M.length := mkMessage_length M
    have hbyteAt : ∀ i, i < 8 + M.length →
        byteAt (extractBitsImage d
          (embedPixels d (bytesToBits (mkMessage M)) img.data)) (8 * i) =
          (mkMessage M).getD i 0 := by
      intro i hi
      rw [htail]
      exact byteAt_bytesToBits (mkMessage M) tail i hmsg256 (by omega)
    have hblen : (extractBitsImage d
        (embedPixels d (bytesToBits (mkMessage M)) img.data)).length =
        3 * d * (img.width * img.height) := by
      rw [extractBitsImage_length, embedPixels_length, h4]
      congr 1
      omega
    simp only [extractData]
    rw [if_neg (by omega : ¬ img.width * img.height * 3 * d < 64)]
    rw [hblen]
    rw [if_neg (by omega : ¬ 3 * d * (img.width * img.height) < 64)]
    rw [hbyteAt 0 (by omega), hbyteAt 1 (by omega), hbyteAt 2 (by omega),
      hbyteAt 3 (by omega)]
    rw [mkMessage_getD_magic0, mkMessage_getD_magic1, mkMessage_getD_magic2,
      mkMessage_getD_magic3]
    rw [if_neg (by decide)]
    rw [show (32 : Nat) = 8 * 4 from rfl, show (40 : Nat) = 8 * 5 from rfl,
      show (48 : Nat) = 8 * 6 from rfl, show (56 : Nat) = 8 * 7 from rfl]
    rw [hbyteAt 4 (by omega), hbyteAt 5 (by omega), hbyteAt 6 (by omega),
      hbyteAt 7 (by omega)]
    rw [mkMessage_getD_len0, mkMessage_getD_len1, mkMessage_getD_len2,
      mkMessage_getD_len3]
    rw [lenBytesBE_recompose M.length (by omega)]
    rw [toInt32_of_lt M.length hL]
    rw [if_neg (by
      push_neg
      constructor
      · exact_mod_cast hMpos
      · have hnat : M.length ≤ (3 * d * (img.width * img.height) - 64) / 8 := by
          omega
        exact_mod_cast hnat)]
    congr 1
    apply List.ext_getElem
    · simp
    intro i h1 h2
    have hiM : i < M.length := by simpa using h2
    simp only [List.getElem_map, List.getElem_range]
    rw [htail, show 64 + 8 * i = 8 * (8 + i) by ring,
      byteAt_bytesToBits (mkMessage M) tail (8 + i) hmsg256 (by omega),
      mkMessage_getD_payload]
    exact List.getD_eq_getElem M 0 hiM

/-! ### Audio engine round trip -/

theorem embedSamples_length (d : Nat) (bits samples : List Nat) :
    (embedSamples d bits samples).length = samples.length := by
  induction bits, samples using embedSamples.induct d with
  | case1 samples => simp [embedSamples]
  | case2 bits h => simp [embedSamples]
  | case3 bits p rest hne pb ih =>
    rw [embedSamples]
    · simp only [List.length_cons]
      exact congrArg (fun n => n + 1) ih
    · exact hne

theorem flatMap_cellBits_length (d : Nat) (samples : List Nat) :
    (samples.flatMap (cellBits d)).length = samples.length * d := by
  induction samples with
  | nil => simp
  | cons p rest ih =>
    simp only [List.flatMap_cons, List.length_append, ih, cellBits, List.length_map,
      List.length_range, List.length_cons]
    ring

/-- The extractable LSB stream of embedded samples starts with exactly the
embedded message bits. -/
theorem extractBits_embedSamples (d : Nat) (bits samples : List Nat) :
    (∀ b ∈ bits, b ≤ 1) → bits.length ≤ samples.length * d →
    ∃ tail, (embedSamples d bits samples).flatMap (cellBits d) = bits ++ tail := by
  induction bits, samples using embedSamples.induct d with
  | case1 samples =>
    exact fun _ _ => ⟨samples.flatMap (cellBits d), by rw [embedSamples, List.nil_append]⟩
  | case2 bits h =>
    intro _ hlen
    match bits, h, hlen with
    | b :: bs, _, hlen => exact absurd hlen (by simp)
  | case3 bits p rest hne pb ih =>
    intro hb hlen
    have hpb : (embedSample d p bits).2 = bits.drop d := embedSample_snd d p bits
    obtain ⟨t, ht⟩ := by
      refine ih ?_ ?_
      · rw [hpb]; exact fun x hx => hb x (List.mem_of_mem_drop hx)
      · rw [hpb, List.length_drop]
        have e : (rest.length + 1) * d = rest.length * d + d := by ring
        rw [List.length_cons, e] at hlen
        omega
    rw [embedSamples]
    · rw [List.flatMap_cons]
      rw [embedSample_fst d p bits hb, rangeMap_getD_eq]
      have ht' : (embedSamples d (List.drop d bits) rest).flatMap (cellBits d) =
          List.drop d bits ++ t := by
        rw [← hpb]; exact ht
      rw [hpb, ht']
      exact cell_absorb bits _ d ⟨t, rfl⟩
    · exact hne

theorem lenBytesBE_recompose_u32 (L : Nat) (hL : L < 4294967296) :
    (L >>> 24 &&& 255) * 16777216 + (L >>> 16 &&& 255) * 65536 +
      (L >>> 8 &&& 255) * 256 + (L &&& 255) = L := by
  have h255 : (255 : Nat) = 2 ^ 8 - 1 := rfl
  simp only [h255, Nat.and_pow_two_sub_one_eq_mod, Nat.shiftRight_eq_div_pow]
  omega

/-- Embedding a nonempty payload that fits the sample bit capacity and
extracting at the same depth recovers it exactly. -/
theorem wav_roundtrip (wav : WavData) (M : List Nat) (d : Nat)
    (hbyte : ∀ b ∈ M, b < 256) (hM : M ≠ []) (hL : M.length < 4294967296)
    (hcap : (8 + M.length) * 8 ≤ wav.samples.length * d) :
    ∃ out, embedWavData wav M d = .ok out ∧ extractWavData out d = some M := by
  have hMpos : 0 < M.length := List.length_pos.mpr hM
  have hbl : (bytesToBits (mkMessage M)).length = 8 * (8 + M.length) := by
    rw [bytesToBits_length, mkMessage_length]
  refine ⟨⟨embedSamples d (bytesToBits (mkMessage M)) wav.samples,
    wav.sampleRate, wav.channels, wav.bitsPerSample⟩, ?_, ?_⟩
  · simp only [embedWavData]
    rw [hbl, if_neg (by omega)]
  · obtain ⟨tail, htail⟩ := extractBits_embedSamples d (bytesToBits (mkMessage M))
      wav.samples (bytesToBits_le_one _) (by rw [hbl]; omega)
    have hmsg256 := mkMessage_lt_256 M hbyte
    have hslen : (embedSamples d (bytesToBits (mkMessage M)) wav.samples).length =
        wav.samples.length := embedSamples_length d _ _
    have hbyteAt : ∀ i, i < 8 + M.length →
        byteAt ((embedSamples d (bytesToBits (mkMessage M))
            wav.samples).flatMap (cellBits d)) (8 * i) =
          (mkMessage M).getD i 0 := by
      intro i hi
      rw [htail]
      exact byteAt_bytesToBits (mkMessage M) tail i hmsg256 (by rw [mkMessage_length]; omega)
    have hblen : ((embedSamples d (bytesToBits (mkMessage M))
        wav.samples).flatMap (cellBits d)).length = wav.samples.length * d := by
      rw [flatMap_cellBits_length, hslen]
    simp only [extractWavData]
    rw [hslen]
    rw [if_neg (by omega : ¬ wav.samples.length * d < 64)]
    rw [hbyteAt 0 (by omega), hbyteAt 1 (by omega), hbyteAt 2 (by omega),
      hbyteAt 3 (by omega)]
    rw [mkMessage_getD_magic0, mkMessage_getD_magic1, mkMessage_getD_magic2,
      mkMessage_getD_magic3]
    rw [if_neg (by decide)]
    rw [show (32 : Nat) = 8 * 4 from rfl, show (40 : Nat) = 8 * 5 from rfl,
      show (48 : Nat) = 8 * 6 from rfl, show (56 : Nat) = 8 * 7 from rfl]
    rw [hbyteAt 4 (by omega), hbyteAt 5 (by omega), hbyteAt 6 (by omega),
      hbyteAt 7 (by omega)]
    rw [mkMessage_getD_len0, mkMessage_getD_len1, mkMessage_getD_len2,
      mkMessage_getD_len3]
    rw [lenBytesBE_recompose_u32 M.length hL]
    rw [hblen]
    rw [if_neg (by omega)]
    congr 1
    apply List.ext_getElem
    · simp
    intro i h1 h2
    have hiM : i < M.length := by simpa using h2
    simp only [List.getElem_map, List.getElem_range]
    rw [htail, show 64 + 8 * i = 8 * (8 + i) by ring,
      byteAt_bytesToBits (mkMessage M) tail (8 + i) hmsg256
        (by rw [mkMessage_length]; omega),
      mkMessage_getD_payload]
    exact List.getD_eq_getElem M 0 hiM

/-! ### Frame effect of the image embedder -/

/-- Pixel `i` of the embedder's output: a pixel that receives at least one
message bit has its alpha byte forced to 255; a pixel past the end of the
message is byte-for-byte unchanged. -/
theorem embedPixels_frame (d : Nat) (bits pixels : List Nat) : ∀ i,
    4 * i + 3 < pixels.length →
    (3 * d * i < bits.length → (embedPixels d bits pixels).getD (4 * i + 3) 0 = 255) ∧
    (bits.length ≤ 3 * d * i → ∀ c, c < 4 →
      (embedPixels d bits pixels).getD (4 * i + c) 0 = pixels.getD (4 * i + c) 0) := by
  induction bits, pixels using embedPixels.induct d with
  | case1 pixels =>
    intro i _
    constructor
    · intro h
      simp at h
    · intro _ c _
      rw [embedPixels]
  | case2 bits r g b a rest hne rb gb bb ih =>
    have hpos : 0 < bits.length := by
      cases bits with
      | nil => exact absurd rfl hne
      | cons x xs => simp
    intro i hi
    cases i with
    | zero =>
      constructor
      · intro _
        rw [embedPixels]
        · rfl
        · exact hne
      · intro habs
        omega
    | succ i' =>
      have hbb3 :
          (embedChannel d b (embedChannel d g (embedChannel d r bits).2).2).2 =
            bits.drop (d + d + d) := by
        rw [embedChannel_snd, embedChannel_snd, embedChannel_snd, List.drop_drop,
          List.drop_drop]
        congr 1; omega
      have hi' : 4 * i' + 3 < rest.length := by
        simp only [List.length_cons] at hi
        omega
      have frame := ih i' hi'
      rw [hbb3] at frame
      have hdroplen : (bits.drop (d + d + d)).length = bits.length - (d + d + d) :=
        List.length_drop _ _
      have hexp : 3 * d * (i' + 1) = 3 * d * i' + 3 * d := by ring
      constructor
      · intro hvis
        rw [embedPixels]
        · have : 4 * (i' + 1) + 3 = (4 * i' + 3) + 1 + 1 + 1 + 1 := by omega
          rw [this, List.getD_cons_succ, List.getD_cons_succ, List.getD_cons_succ,
            List.getD_cons_succ]
          have hvis' : 3 * d * i' < (bits.drop (d + d + d)).length := by
            rw [hdroplen]
            omega
          have goal1 := frame.1 hvis'
          rw [hbb3]
          exact goal1
        · exact hne
      · intro hdone c hc
        rw [embedPixels]
        · have e1 : 4 * (i' + 1) + c = (4 * i' + c) + 1 + 1 + 1 + 1 := by omega
          rw [e1, List.getD_cons_succ, List.getD_cons_succ, List.getD_cons_succ,
            List.getD_cons_succ, List.getD_cons_succ, List.getD_cons_succ,
            List.getD_cons_succ, List.getD_cons_succ]
          have hdone' : (bits.drop (d + d + d)).length ≤ 3 * d * i' := by
            rw [hdroplen]
            omega
          have goal2 := frame.2 hdone' c hc
          rw [hbb3]
          exact goal2
        · exact hne
  | case3 bits pixels h1 h2 =>
    intro i hi
    match pixels, h2, hi with
    | [], _, hi => exact absurd hi (by simp)
    | [x], _, hi => exact absurd hi (by simp)
    | [x, y], _, hi => exact absurd hi (by simp)
    | [x, y, z], _, hi => exact absurd hi (by simp)
    | r :: g :: b :: a :: rest, h, _ => exact absurd rfl (h r g b a rest)

/-! ### Claim theorems: C1, C3, C5, C8 -/

/-- Claim C1, amended: for both LSB engines, a *nonempty* message whose framed
form fits the carrier's bit capacity (and whose length is representable in the
32-bit length field: below 2^31 for images, whose extractor recombines it with
signed int32 shifts, and below 2^32 for audio) round-trips exactly:
`extract(embed(C, M, d), d) = M`.  The original claim also covered the empty
message, which both extractors reject (`payloadLength <= 0`), returning null. -/
theorem C1_extract_embed_roundtrip :
    (∀ (img : ImageData) (M : List Nat) (d : Nat),
      img.data.length = 4 * (img.width * img.height) →
      (∀ b ∈ M, b < 256) → M ≠ [] → M.length < 2147483648 →
      1 ≤ d → d ≤ 4 →
      (8 + M.length) * 8 ≤ img.width * img.height * 3 * d →
      ∃ out, embedData img M d = .ok out ∧ extractData out d = some M) ∧
    (∀ (wav : WavData) (M : List Nat) (d : Nat),
      (∀ b ∈ M, b < 256) → M ≠ [] → M.length < 4294967296 →
      1 ≤ d → d ≤ 4 →
      (8 + M.length) * 8 ≤ wav.samples.length * d →
      ∃ out, embedWavData wav M d = .ok out ∧ extractWavData out d = some M) :=
  ⟨fun img M d h4 hb hM hL _ _ hcap => image_roundtrip img M d h4 hb hM hL hcap,
   fun wav M d hb hM hL _ _ hcap => wav_roundtrip wav M d hb hM hL hcap⟩

/-- Witness for C1: concrete round trips through both engines (a 4×6 RGBA image
at depth 1 carrying one byte, an 80-sample WAV carrying two bytes). -/
theorem C1_witness :
    (∃ out, embedData ⟨4, 6, List.replicate 96 7⟩ [201] 1 = .ok out ∧
      extractData out 1 = some [201]) ∧
    (∃ out, embedWavData ⟨List.replicate 80 33, 44100, 1, 16⟩ [5, 255] 1 = .ok out ∧
      extractWavData out 1 = some [5, 255]) :=
  ⟨C1_extract_embed_roundtrip.1 ⟨4, 6, List.replicate 96 7⟩ [201] 1 (by decide)
      (by decide) (by decide) (by decide) (by decide) (by decide) (by decide),
    C1_extract_embed_roundtrip.2 ⟨List.replicate 80 33, 44100, 1, 16⟩ [5, 255] 1
      (by decide) (by decide) (by decide) (by decide) (by decide) (by decide)⟩

/-- Counterexample to C1 as stated: the empty message fits the capacity of a
4×6 image (and of 80 audio samples) at depth 1 and embeds successfully, but
extraction returns null (the extractors reject a zero length field), not the
message. -/
theorem C1_counterexample :
    (embedData ⟨4, 6, List.replicate 96 7⟩ [] 1).toOption.isSome = true ∧
    (embedData ⟨4, 6, List.replicate 96 7⟩ [] 1).toOption.bind
      (fun out => extractData out 1) = none ∧
    (embedWavData ⟨List.replicate 80 33, 44100, 1, 16⟩ [] 1).toOption.isSome = true ∧
    (embedWavData ⟨List.replicate 80 33, 44100, 1, 16⟩ [] 1).toOption.bind
      (fun out => extractWavData out 1) = none := by decide

/-- Claim C3, amended: capacity analysis returns ⌊bits/8⌋ − 8 exactly when that
value is nonnegative, and clamps the result to 0 otherwise (`Math.max(0, ...)`);
for images bits = W·H·3·d, for audio bits = N·d. -/
theorem C3_capacity_formula :
    (∀ (img : ImageData) (d : Nat),
      (8 ≤ img.width * img.height * 3 * d / 8 →
        analyzeImageCapacity img d =
          ((img.width * img.height * 3 * d / 8 : Nat) : Int) - 8) ∧
      (img.width * img.height * 3 * d / 8 < 8 →
        analyzeImageCapacity img d = 0)) ∧
    (∀ (wav : WavData) (d : Nat),
      (8 ≤ wav.samples.length * d / 8 →
        analyzeWavCapacity wav d =
          ((wav.samples.length * d / 8 : Nat) : Int) - 8) ∧
      (wav.samples.length * d / 8 < 8 →
        analyzeWavCapacity wav d = 0)) := by
  have eass : ∀ w h d : Nat, w * h * (3 * d) = w * h * 3 * d := fun w h d => by ring
  refine ⟨fun img d => ?_, fun wav d => ?_⟩
  · rw [analyzeImageCapacity, eass]
    constructor
    · intro h
      rw [max_eq_right (by omega)]
    · intro h
      rw [max_eq_left (by omega)]
  · rw [analyzeWavCapacity]
    constructor
    · intro h
      rw [max_eq_right (by omega)]
    · intro h
      rw [max_eq_left (by omega)]

/-- Witness for C3: an 8×8 image at depth 1 has capacity ⌊192/8⌋−8 = 16 bytes;
an 80-sample WAV at depth 1 has ⌊80/8⌋−8 = 2 bytes. -/
theorem C3_witness :
    analyzeImageCapacity ⟨8, 8, List.replicate 256 0⟩ 1 =
      ((8 * 8 * 3 * 1 / 8 : Nat) : Int) - 8 ∧
    analyzeWavCapacity ⟨List.replicate 80 0, 44100, 1, 16⟩ 1 =
      ((80 * 1 / 8 : Nat) : Int) - 8 :=
  ⟨(C3_capacity_formula.1 ⟨8, 8, List.replicate 256 0⟩ 1).1 (by decide),
   (C3_capacity_formula.2 ⟨List.replicate 80 0, 44100, 1, 16⟩ 1).1 (by decide)⟩

/-- Counterexample to C3 as stated: a 1×1 image at depth 1 has
⌊3/8⌋ − 8 = −8, but `analyzeImageCapacity` clamps to 0 (likewise a 3-sample
WAV carrier). -/
theorem C3_counterexample :
    analyzeImageCapacity ⟨1, 1, List.replicate 4 0⟩ 1 = 0 ∧
    ((1 * 1 * 3 * 1 / 8 : Nat) : Int) - 8 = -8 ∧
    analyzeWavCapacity ⟨List.replicate 3 0, 44100, 1, 16⟩ 1 = 0 ∧
    ((3 * 1 / 8 : Nat) : Int) - 8 = -8 := by decide

/-- Claim C5: an envelope of exactly ⌊bits/8⌋ − 8 bytes embeds successfully,
and one byte more makes both embedders throw the capacity error, for the image
and audio engines alike (the success half needs the capacity to be nonnegative
for a length to equal it). -/
theorem C5_capacity_boundary :
    (∀ (img : ImageData) (d : Nat) (M : List Nat),
      8 ≤ img.width * img.height * 3 * d / 8 →
      M.length = img.width * img.height * 3 * d / 8 - 8 →
      ∃ out, embedData img M d = .ok out) ∧
    (∀ (img : ImageData) (d : Nat) (M : List Nat),
      M.length = img.width * img.height * 3 * d / 8 - 8 + 1 →
      ∃ e, embedData img M d = .error e) ∧
    (∀ (wav : WavData) (d : Nat) (M : List Nat),
      8 ≤ wav.samples.length * d / 8 →
      M.length = wav.samples.length * d / 8 - 8 →
      ∃ out, embedWavData wav M d = .ok out) ∧
    (∀ (wav : WavData) (d : Nat) (M : List Nat),
      M.length = wav.samples.length * d / 8 - 8 + 1 →
      ∃ e, embedWavData wav M d = .error e) := by
  have hbl : ∀ M : List Nat, (bytesToBits (mkMessage M)).length = 8 * (8 + M.length) :=
    fun M => by rw [bytesToBits_length, mkMessage_length]
  refine ⟨fun img d M h8 hM => ?_, fun img d M hM => ?_,
    fun wav d M h8 hM => ?_, fun wav d M hM => ?_⟩
  · simp only [embedData]
    rw [if_neg (by omega)]
    exact ⟨_, rfl⟩
  · simp only [embedData]
    rw [if_pos (by omega)]
    exact ⟨_, rfl⟩
  · simp only [embedWavData]
    rw [hbl, if_neg (by omega)]
    exact ⟨_, rfl⟩
  · simp only [embedWavData]
    rw [hbl, if_pos (by omega)]
    exact ⟨_, rfl⟩

/-- Witness for C5: a 4×6 image at depth 1 (capacity 1 byte) accepts a 1-byte
envelope and rejects a 2-byte one; an 80-sample WAV (capacity 2) accepts 2
bytes and rejects 3. -/
theorem C5_witness :
    (∃ out, embedData ⟨4, 6, List.replicate 96 7⟩ [9] 1 = .ok out) ∧
    (∃ e, embedData ⟨4, 6, List.replicate 96 7⟩ [9, 9] 1 = .error e) ∧
    (∃ out, embedWavData ⟨List.replicate 80 33, 44100, 1, 16⟩ [9, 9] 1 = .ok out) ∧
    (∃ e, embedWavData ⟨List.replicate 80 33, 44100, 1, 16⟩ [9, 9, 9] 1 = .error e) :=
  ⟨C5_capacity_boundary.1 ⟨4, 6, List.replicate 96 7⟩ 1 [9] (by decide) (by decide),
   C5_capacity_boundary.2.1 ⟨4, 6, List.replicate 96 7⟩ 1 [9, 9] (by decide),
   C5_capacity_boundary.2.2.1 ⟨List.replicate 80 33, 44100, 1, 16⟩ 1 [9, 9]
     (by decide) (by decide),
   C5_capacity_boundary.2.2.2 ⟨List.replicate 80 33, 44100, 1, 16⟩ 1 [9, 9, 9]
     (by decide)⟩

/-- Claim C8: after image embedding, every pixel that received at least one
message bit (pixel `i` with `3·d·i < (8+len)·8`) has alpha 255 in the output,
and every pixel past the end of the message is byte-for-byte unchanged,
including its alpha byte. -/
theorem C8_alpha_frame :
    ∀ (img : ImageData) (M : List Nat) (d : Nat) (out : ImageData),
      embedData img M d = .ok out →
      ∀ i, 4 * i + 3 < img.data.length →
        (3 * d * i < (8 + M.length) * 8 → out.data.getD (4 * i + 3) 0 = 255) ∧
        ((8 + M.length) * 8 ≤ 3 * d * i → ∀ c, c < 4 →
          out.data.getD (4 * i + c) 0 = img.data.getD (4 * i + c) 0) := by
  intro img M d out hok i hi
  have hdata : out.data = embedPixels d (bytesToBits (mkMessage M)) img.data := by
    simp only [embedData] at hok
    split at hok
    · exact absurd hok (by simp)
    · cases hok
      rfl
  have hlen : (bytesToBits (mkMessage M)).length = 8 * (8 + M.length) := by
    rw [bytesToBits_length, mkMessage_length]
  have frame := embedPixels_frame d (bytesToBits (mkMessage M)) img.data i hi
  rw [hlen] at frame
  rw [hdata]
  exact ⟨fun h => frame.1 (by omega), fun h => frame.2 (by omega)⟩

/-- Witness for C8: a 25-pixel image carrying one byte (72 message bits at
depth 1): pixel 0 is touched, so its alpha byte is 255; pixel 24 is past the
message (bit offset 72), so all four of its bytes keep the carrier value 7. -/
theorem C8_witness :
    (embedPixels 1 (bytesToBits (mkMessage [201])) (List.replicate 100 7)).getD
      (4 * 0 + 3) 0 = 255 ∧
    (embedPixels 1 (bytesToBits (mkMessage [201])) (List.replicate 100 7)).getD
      (4 * 24 + 3) 0 = (List.replicate 100 7).getD (4 * 24 + 3) 0 :=
  ⟨(C8_alpha_frame ⟨25, 1, List.replicate 100 7⟩ [201] 1
      ⟨25, 1, embedPixels 1 (bytesToBits (mkMessage [201])) (List.replicate 100 7)⟩
      (by rfl) 0 (by decide)).1 (by decide),
   (C8_alpha_frame ⟨25, 1, List.replicate 100 7⟩ [201] 1
      ⟨25, 1, embedPixels 1 (bytesToBits (mkMessage [201])) (List.replicate 100 7)⟩
      (by rfl) 24 (by decide)).2 (by decide) 3 (by decide)⟩

/-! ### Crypto envelope (crypto.worker.ts) -/

def FLAG_COMPRESSED : Nat := 1
def FLAG_HIGH_SECURITY : Nat := 2

/-- The uniform decrypt failure message of `handleDecrypt`. -/
def GENERIC_ERROR : String := "Decryption failed - wrong password or corrupted data"

/-- `DataView.setUint32(_, n, true)`: little-endian u32 bytes. -/
def leU32 (n : Nat) : List Nat :=
  [n % 256, n / 256 % 256, n / 65536 % 256, n / 16777216 % 256]

/-- `DataView.getUint32(off, true)`; the worker reads it only after the
49-byte minimum length check, so the reads are always in bounds. -/
def readLeU32 (data : List Nat) (off : Nat) : Nat :=
  data.getD off 0 + 256 * data.getD (off + 1) 0 + 65536 * data.getD (off + 2) 0 +
    16777216 * data.getD (off + 3) 0

/-- The packing section of `handleEncrypt`: flags byte (bit 0 = compressed,
bit 1 = high security), salt-length field, salt, IV, ciphertext.  The salt and
IV are `crypto.getRandomValues` outputs of 16 and 12 bytes and the ciphertext
(with its appended GCM tag) comes from `crypto.subtle.encrypt`; all three
enter as parameters. -/
def handleEncryptPack (compress useHighSecurity : Bool)
    (salt iv ciphertext : List Nat) : List Nat :=
  let flagsByte := (if compress then FLAG_COMPRESSED else 0) |||
    (if useHighSecurity then FLAG_HIGH_SECURITY else 0)
  [flagsByte] ++ leU32 salt.length ++ salt ++ iv ++ ciphertext

/-- Result of the pure unframing phase of `handleDecrypt`, before any key
derivation. -/
structure ParsedEnvelope where
  isCompressed : Bool
  isHighSecurity : Bool
  salt : List Nat
  iv : List Nat
  encryptedData : List Nat
  deriving Repr, DecidableEq

/-- The unframe/validate phase of `handleDecrypt` (everything before
`deriveKeyPBKDF2`): minimum length 49, flags, salt-length field must equal 16,
bounds checks for salt, IV and the 16-byte auth tag, then slicing.  Every
failure throws the uniform `GENERIC_ERROR`. -/
def parseEnvelope (data : List Nat) : Except String ParsedEnvelope :=
  if data.length < 49 then .error GENERIC_ERROR
  else
    let flags := data.getD 0 0
    let isCompressed := flags &&& FLAG_COMPRESSED != 0
    let isHighSecurity := flags &&& FLAG_HIGH_SECURITY != 0
    let saltLen := readLeU32 data 1
    if saltLen ≠ 16 then .error GENERIC_ERROR
    else if 5 + saltLen > data.length then .error GENERIC_ERROR
    else if 5 + saltLen + 12 > data.length then .error GENERIC_ERROR
    else if 5 + saltLen + 12 + 16 > data.length then .error GENERIC_ERROR
    else
      .ok ⟨isCompressed, isHighSecurity, (data.drop 5).take saltLen,
        (data.drop (5 + saltLen)).take 12, data.drop (5 + saltLen + 12)⟩

/-- `handleDecrypt` with the WebCrypto and gzip primitives as oracles:
`dec highSec salt iv ct` models `deriveKeyPBKDF2` (iteration count selected by
the high-security flag) followed by `crypto.subtle.decrypt` (`none` = any
thrown error, e.g. a GCM auth failure from a wrong password or tampering);
`inflate` models `decompressData` (`none` = decompression failure).  The
surrounding try/catch replaces every thrown error with `GENERIC_ERROR`. -/
def handleDecrypt (dec : Bool → List Nat → List Nat → List Nat → Option (List Nat))
    (inflate : List Nat → Option (List Nat)) (data : List Nat) :
    Except String (List Nat) :=
  match parseEnvelope data with
  | .error e => .error e
  | .ok env =>
    match dec env.isHighSecurity env.salt env.iv env.encryptedData with
    | none => .error GENERIC_ERROR
    | some plaintext =>
      if env.isCompressed then
        match inflate plaintext with
        | none => .error GENERIC_ERROR
        | some r => .ok r
      else .ok plaintext

/-- Claim C4: the envelope is flag byte (bit 0 = compressed, bit 1 =
high security), salt length 16 as little-endian u32, 16 salt bytes, 12 IV
bytes, then the GCM ciphertext; and a decode whose salt-length field is not 16
fails with the uniform decrypt error regardless of the crypto oracles, i.e.
before any key derivation. -/
theorem C4_envelope_layout :
    (∀ (compress useHighSecurity : Bool) (salt iv ciphertext : List Nat),
      salt.length = 16 →
      handleEncryptPack compress useHighSecurity salt iv ciphertext =
        ((if compress then 1 else 0) + (if useHighSecurity then 2 else 0)) ::
          ([16, 0, 0, 0] ++ salt ++ iv ++ ciphertext)) ∧
    (∀ (dec : Bool → List Nat → List Nat → List Nat → Option (List Nat))
      (inflate : List Nat → Option (List Nat)) (data : List Nat),
      readLeU32 data 1 ≠ 16 →
      handleDecrypt dec inflate data = .error GENERIC_ERROR) := by
  constructor
  · intro compress useHighSecurity salt iv ciphertext hsalt
    simp only [handleEncryptPack, hsalt]
    cases compress <;> cases useHighSecurity <;> rfl
  · intro dec inflate data hsl
    simp only [handleDecrypt, parseEnvelope]
    by_cases h49 : data.length < 49
    · rw [if_pos h49]
    · rw [if_neg h49, if_pos hsl]

/-- Witness for C4: a concrete envelope layout (compressed, normal security)
and a concrete rejected envelope whose salt-length field reads 17. -/
theorem C4_witness :
    ((List.replicate 16 9).length = 16 ∧
      handleEncryptPack true false (List.replicate 16 9) (List.replicate 12 4) [7, 7] =
        ((if true then 1 else 0) + (if false then 2 else 0)) ::
          ([16, 0, 0, 0] ++ List.replicate 16 9 ++ List.replicate 12 4 ++ [7, 7])) ∧
    (readLeU32 (0 :: 17 :: List.replicate 47 0) 1 ≠ 16 ∧
      handleDecrypt (fun _ _ _ _ => some []) (fun _ => some [])
        (0 :: 17 :: List.replicate 47 0) = .error GENERIC_ERROR) :=
  ⟨⟨by decide, C4_envelope_layout.1 true false (List.replicate 16 9)
      (List.replicate 12 4) [7, 7] (by decide)⟩,
   ⟨by decide, C4_envelope_layout.2 (fun _ _ _ _ => some []) (fun _ => some [])
      (0 :: 17 :: List.replicate 47 0) (by decide)⟩⟩

/-! ### LSB depth policy (file-validator.ts) -/

inductive Platform
  | desktop
  | mobile
  deriving Repr, DecidableEq

/-- `WARNING_MESSAGES.mobileLsbForced` (file-validator.ts): the message
attached when a mobile platform forces depth 1. -/
def mobileLsbForced : String :=
  "LSB depth is fixed to 1 on mobile devices for optimal performance."

/-- `WARNING_MESSAGES.lsbDepthWarning` (file-validator.ts): the detectability
warning attached to effective depths above 2. -/
def lsbDepthWarning : String := "LSB depth > 2 is not recommended"

structure DepthResult where
  depth : Int
  forced : Bool
  message : Option String
  deriving Repr, DecidableEq

/-- `getLsbDepthForPlatform`: mobile always gets depth 1 (forced, with the
mobile warning); quick mode (non-expert) gets depth 1 (forced, no message);
expert mode on desktop clamps the requested depth with
`Math.max(1, Math.min(4, requestedDepth))` and attaches the detectability
warning above depth 2.  The requested depth, a JS number, is modelled as an
integer. -/
def getLsbDepthForPlatform (requestedDepth : Int) (isExpertMode : Bool)
    (platform : Platform) : DepthResult :=
  if platform = .mobile then
    { depth := 1, forced := true, message := some mobileLsbForced }
  else if !isExpertMode then
    { depth := 1, forced := true, message := none }
  else
    let depth := max 1 (min 4 requestedDepth)
    if depth > 2 then
      { depth := depth, forced := false, message := some lsbDepthWarning }
    else
      { depth := depth, forced := false, message := none }

/-- Claim C7, amended: the depth policy never produces an error.  Mobile and
quick mode force depth 1 (on mobile with a message); expert mode on desktop
clamps any requested depth — including requests outside 1..4 — into 1..4 and
warns above depth 2; the effective depth always lies in 1..4; and an effective
depth above 1 happens only in expert mode on desktop. -/
theorem C7_depth_policy :
    ∀ (requestedDepth : Int) (isExpertMode : Bool) (platform : Platform),
      (1 ≤ (getLsbDepthForPlatform requestedDepth isExpertMode platform).depth ∧
        (getLsbDepthForPlatform requestedDepth isExpertMode platform).depth ≤ 4) ∧
      (platform = .mobile →
        getLsbDepthForPlatform requestedDepth isExpertMode platform =
          { depth := 1, forced := true, message := some mobileLsbForced }) ∧
      (platform = .desktop → isExpertMode = false →
        getLsbDepthForPlatform requestedDepth isExpertMode platform =
          { depth := 1, forced := true, message := none }) ∧
      (platform = .desktop → isExpertMode = true →
        (getLsbDepthForPlatform requestedDepth isExpertMode platform).depth =
          max 1 (min 4 requestedDepth) ∧
        (getLsbDepthForPlatform requestedDepth isExpertMode platform).forced = false ∧
        ((getLsbDepthForPlatform requestedDepth isExpertMode platform).depth > 2 ↔
          (getLsbDepthForPlatform requestedDepth isExpertMode platform).message =
            some lsbDepthWarning)) ∧
      (1 < (getLsbDepthForPlatform requestedDepth isExpertMode platform).depth →
        platform = .desktop ∧ isExpertMode = true) := by
  intro rd em pf
  cases pf with
  | mobile =>
    have He : getLsbDepthForPlatform rd em .mobile =
        { depth := 1, forced := true, message := some mobileLsbForced } := by
      simp [getLsbDepthForPlatform]
    rw [He]
    refine ⟨⟨by norm_num, by norm_num⟩, fun _ => rfl, fun h => by simp at h,
      fun h => by simp at h, fun h => by norm_num at h⟩
  | desktop =>
    cases em with
    | false =>
      have He : getLsbDepthForPlatform rd false .desktop =
          { depth := 1, forced := true, message := none } := by
        simp [getLsbDepthForPlatform]
      rw [He]
      refine ⟨⟨by norm_num, by norm_num⟩, fun h => by simp at h, fun _ _ => rfl,
        fun _ h => by simp at h, fun h => by norm_num at h⟩
    | true =>
      have He : getLsbDepthForPlatform rd true .desktop =
          (if max 1 (min 4 rd) > 2 then
            { depth := max 1 (min 4 rd), forced := false,
              message := some lsbDepthWarning }
          else
            { depth := max 1 (min 4 rd), forced := false, message := none }) := by
        simp [getLsbDepthForPlatform]
      by_cases h2 : max 1 (min 4 rd) > 2
      · rw [He, if_pos h2]
        refine ⟨⟨by show (1 : Int) ≤ max 1 (min 4 rd); omega,
            by show max 1 (min 4 rd) ≤ 4; omega⟩,
          fun h => by simp at h, fun _ h => by simp at h,
          fun _ _ => ⟨rfl, rfl, ?_⟩, fun _ => ⟨rfl, rfl⟩⟩
        exact ⟨fun _ => rfl, fun _ => h2⟩
      · rw [He, if_neg h2]
        refine ⟨⟨by show (1 : Int) ≤ max 1 (min 4 rd); omega,
            by show max 1 (min 4 rd) ≤ 4; omega⟩,
          fun h => by simp at h, fun _ h => by simp at h,
          fun _ _ => ⟨rfl, rfl, ?_⟩, fun _ => ⟨rfl, rfl⟩⟩
        exact iff_of_false h2 (by simp)

/-- Witness for C7: a request for depth 3 is honoured (with the detectability
warning) in expert mode on desktop, and forced to 1 on mobile. -/
theorem C7_witness :
    getLsbDepthForPlatform 3 true Platform.mobile =
      { depth := 1, forced := true, message := some mobileLsbForced } ∧
    (getLsbDepthForPlatform 3 true Platform.desktop).depth = max 1 (min 4 3) :=
  ⟨(C7_depth_policy 3 true Platform.mobile).2.1 rfl,
   ((C7_depth_policy 3 true Platform.desktop).2.2.2.1 rfl rfl).1⟩

/-- Counterexample to C7 as stated: no input produces a `DepthPolicy` error —
the function's result type has no error outcome.  Depth 3 requested on mobile
returns forced depth 1 (not an error); depth 7, outside 1..4, requested in
expert mode on desktop is clamped to 4 (not an error); depth 0 is clamped
to 1. -/
theorem C7_counterexample :
    getLsbDepthForPlatform 3 true Platform.mobile =
      { depth := 1, forced := true, message := some mobileLsbForced } ∧
    getLsbDepthForPlatform 7 true Platform.desktop =
      { depth := 4, forced := false, message := some lsbDepthWarning } ∧
    getLsbDepthForPlatform 0 true Platform.desktop =
      { depth := 1, forced := false, message := none } := by
  decide

/-! ### PNG scanline reconstruction (png-encoder.ts, decodePNG) -/

/-- `paethPredictor`: with `p = a + b - c`, pick whichever of `a`, `b`, `c`
minimises `|p − x|`, ties broken in the order a, b, c. -/
def paethPredictor (a b c : Int) : Int :=
  let p := a + b - c
  let pa := (p - a).natAbs
  let pb := (p - b).natAbs
  let pc := (p - c).natAbs
  if pa ≤ pb ∧ pa ≤ pc then a
  else if pb ≤ pc then b
  else c

/-- One step of the inverse-filter switch of `decodePNG`: `left`, `up`,
`upLeft` are the already-reconstructed neighbours (0 off the left edge) at the
bytes-per-pixel stride.  The Paeth predictor value is one of its nonnegative
arguments, so `Int.toNat` is exact; `& 0xFF` keeps the low byte.  Unknown
filter types are treated as None. -/
def reconByte (filterType raw left up upLeft : Nat) : Nat :=
  match filterType with
  | 0 => raw
  | 1 => (raw + left) &&& 255
  | 2 => (raw + up) &&& 255
  | 3 => (raw + (left + up) / 2) &&& 255
  | 4 => (raw + (paethPredictor left up upLeft).toNat) &&& 255
  | _ => raw

/-- The per-scanline loop of `decodePNG`: `prev` is the previous reconstructed
row, `out` the already-reconstructed prefix of the current row (the loop
mutates `currentRow` in place, so the left neighbour reads the reconstructed
value), `x = out.length` the loop index.  `decodePNG` always calls this with
`channels` 3 or 4. -/
def reconRowGo (channels filterType : Nat) (prev : List Nat) (out : List Nat)
    (x : Nat) : List Nat → List Nat
  | [] => out
  | raw :: rest =>
    let left := if channels ≤ x then out.getD (x - channels) 0 else 0
    let up := prev.getD x 0
    let upLeft := if channels ≤ x then prev.getD (x - channels) 0 else 0
    reconRowGo channels filterType prev
      (out ++ [reconByte filterType raw left up upLeft]) (x + 1) rest

/-- Reconstruct one scanline from its raw filtered bytes. -/
def reconRow (channels filterType : Nat) (prev raw : List Nat) : List Nat :=
  reconRowGo channels filterType prev [] 0 raw

/-- The row-by-row loop of `decodePNG`: each scanline is a filter-type byte
and `width * channels` raw bytes; the reconstructed row becomes the `prevRow`
of the next (initially all zeros). -/
def reconRows (channels : Nat) (prev : List Nat) :
    List (Nat × List Nat) → List (List Nat)
  | [] => []
  | (ft, raws) :: rest =>
    let cur := reconRow channels ft prev raws
    cur :: reconRows channels cur rest

theorem reconRowGo_spec (channels ft : Nat) (prev : List Nat) (hch : 1 ≤ channels) :
    ∀ (raw out : List Nat),
      (reconRowGo channels ft prev out out.length raw).length =
        out.length + raw.length ∧
      (∀ j, j < out.length →
        (reconRowGo channels ft prev out out.length raw).getD j 0 = out.getD j 0) ∧
      (∀ j, j < raw.length →
        (reconRowGo channels ft prev out out.length raw).getD (out.length + j) 0 =
          reconByte ft (raw.getD j 0)
            (if channels ≤ out.length + j then
              (reconRowGo channels ft prev out out.length raw).getD
                (out.length + j - channels) 0
            else 0)
            (prev.getD (out.length + j) 0)
            (if channels ≤ out.length + j then prev.getD (out.length + j - channels) 0
            else 0)) := by
  intro raw
  induction raw with
  | nil =>
    intro out
    refine ⟨by rw [reconRowGo]; simp, fun j _ => by rw [reconRowGo], fun j hj => by
      simp at hj⟩
  | cons r rest ih =>
    intro out
    set v := reconByte ft r
      (if channels ≤ out.length then out.getD (out.length - channels) 0 else 0)
      (prev.getD out.length 0)
      (if channels ≤ out.length then prev.getD (out.length - channels) 0 else 0)
      with hv
    have hstep : reconRowGo channels ft prev out out.length (r :: rest) =
        reconRowGo channels ft prev (out ++ [v]) (out.length + 1) rest := by
      rw [reconRowGo]
    have hlen1 : (out ++ [v]).length = out.length + 1 := by simp
    have ihspec := ih (out ++ [v])
    rw [hlen1] at ihspec
    obtain ⟨ihlen, ihpre, ihmain⟩ := ihspec
    have hpre : ∀ j, j < out.length + 1 →
        (reconRowGo channels ft prev out out.length (r :: rest)).getD j 0 =
          (out ++ [v]).getD j 0 := by
      intro j hj
      rw [hstep]
      exact ihpre j hj
    refine ⟨?_, ?_, ?_⟩
    · rw [hstep, ihlen]
      simp only [List.length_cons]
      omega
    · intro j hj
      rw [hpre j (by omega)]
      exact getD_append_left_nat out [v] j hj
    · intro j hj
      cases j with
      | zero =>
        have hL : (reconRowGo channels ft prev out out.length (r :: rest)).getD
            (out.length + 0) 0 = v := by
          rw [Nat.add_zero, hpre out.length (by omega),
            getD_append_right_nat out [v] out.length (by omega), Nat.sub_self,
            List.getD_cons_zero]
        rw [hL, hv]
        simp only [Nat.add_zero, List.getD_cons_zero]
        by_cases hc : channels ≤ out.length
        · simp only [if_pos hc]
          rw [hpre (out.length - channels) (by omega),
            getD_append_left_nat out [v] _ (by omega)]
        · simp only [if_neg hc]
      | succ j' =>
        have hj' : j' < rest.length := by
          simp only [List.length_cons] at hj
          omega
        rw [hstep]
        rw [show out.length + (j' + 1) = out.length + 1 + j' by omega]
        rw [List.getD_cons_succ]
        exact ihmain j' hj'

theorem and255_eq_mod (x : Nat) : x &&& 255 = x % 256 := by
  have h := Nat.and_pow_two_sub_one_eq_mod x 8
  norm_num at h
  exact h

theorem reconByte_three (raw l u ul : Nat) :
    reconByte 3 raw l u ul = (raw + (l + u) / 2) % 256 := by
  rw [show reconByte 3 raw l u ul = (raw + (l + u) / 2) &&& 255 from rfl, and255_eq_mod]

theorem reconByte_four (raw l u ul : Nat) :
    reconByte 4 raw l u ul = (raw + (paethPredictor l u ul).toNat) % 256 := by
  rw [show reconByte 4 raw l u ul =
    (raw + (paethPredictor l u ul).toNat) &&& 255 from rfl, and255_eq_mod]

/-- Claim C6: scanline reconstruction uses the channel count as the
bytes-per-pixel stride (the left neighbours sit `channels` bytes back); the
filter-3 byte is `raw + ⌊(left+up)/2⌋ mod 256`, the filter-4 byte is
`raw + Paeth(left, up, upLeft) mod 256`, and the Paeth predictor returns
whichever of a, b, c minimises `|p − x|` for `p = a + b − c`, with ties broken
in the order a, then b, then c. -/
theorem C6_png_scanline_filters :
    (∀ (channels : Nat) (prev raw : List Nat) (x : Nat),
      1 ≤ channels → x < raw.length →
      (reconRow channels 3 prev raw).getD x 0 =
        (raw.getD x 0 +
          ((if channels ≤ x then (reconRow channels 3 prev raw).getD (x - channels) 0
            else 0) + prev.getD x 0) / 2) % 256) ∧
    (∀ (channels : Nat) (prev raw : List Nat) (x : Nat),
      1 ≤ channels → x < raw.length →
      (reconRow channels 4 prev raw).getD x 0 =
        (raw.getD x 0 + (paethPredictor
          (if channels ≤ x then (reconRow channels 4 prev raw).getD (x - channels) 0
            else 0)
          (prev.getD x 0)
          (if channels ≤ x then prev.getD (x - channels) 0 else 0)).toNat) % 256) ∧
    (∀ a b c : Int,
      (paethPredictor a b c = a ∨ paethPredictor a b c = b ∨
        paethPredictor a b c = c) ∧
      (a + b - c - paethPredictor a b c).natAbs ≤ (a + b - c - a).natAbs ∧
      (a + b - c - paethPredictor a b c).natAbs ≤ (a + b - c - b).natAbs ∧
      (a + b - c - paethPredictor a b c).natAbs ≤ (a + b - c - c).natAbs ∧
      ((a + b - c - a).natAbs ≤ (a + b - c - b).natAbs ∧
          (a + b - c - a).natAbs ≤ (a + b - c - c).natAbs →
        paethPredictor a b c = a) ∧
      (¬((a + b - c - a).natAbs ≤ (a + b - c - b).natAbs ∧
            (a + b - c - a).natAbs ≤ (a + b - c - c).natAbs) →
        (a + b - c - b).natAbs ≤ (a + b - c - c).natAbs →
        paethPredictor a b c = b) ∧
      (¬((a + b - c - a).natAbs ≤ (a + b - c - b).natAbs ∧
            (a + b - c - a).natAbs ≤ (a + b - c - c).natAbs) →
        ¬(a + b - c - b).natAbs ≤ (a + b - c - c).natAbs →
        paethPredictor a b c = c)) := by
  refine ⟨?_, ?_, ?_⟩
  · intro channels prev raw x hch hx
    have spec := (reconRowGo_spec channels 3 prev hch raw []).2.2 x hx
    simp only [List.length_nil, Nat.zero_add] at spec
    simp only [reconRow]
    rw [spec, reconByte_three]
  · intro channels prev raw x hch hx
    have spec := (reconRowGo_spec channels 4 prev hch raw []).2.2 x hx
    simp only [List.length_nil, Nat.zero_add] at spec
    simp only [reconRow]
    rw [spec, reconByte_four]
    simp only [apply_ite (Nat.cast : Nat → Int), Nat.cast_zero]
  · intro a b c
    simp only [paethPredictor]
    split_ifs with h1 h2 <;>
      refine ⟨by tauto, by omega, by omega, by omega, fun h => by omega,
        fun h1' h2' => by omega, fun h1' h2' => by omega⟩

/-- Witness for C6: concrete filter-3 and filter-4 reconstructions at
channels = 3, x = 3 (so the left neighbour is the reconstructed byte three
positions back), plus a concrete Paeth call. -/
theorem C6_witness :
    ((reconRow 3 3 [10, 20, 30, 40] [100, 6, 7, 200]).getD 3 0 =
      (([100, 6, 7, 200] : List Nat).getD 3 0 +
        ((if 3 ≤ 3 then (reconRow 3 3 [10, 20, 30, 40] [100, 6, 7, 200]).getD (3 - 3) 0
          else 0) + ([10, 20, 30, 40] : List Nat).getD 3 0) / 2) % 256) ∧
    ((reconRow 3 4 [10, 20, 30, 40] [100, 6, 7, 200]).getD 3 0 =
      (([100, 6, 7, 200] : List Nat).getD 3 0 + (paethPredictor
        (if 3 ≤ 3 then (reconRow 3 4 [10, 20, 30, 40] [100, 6, 7, 200]).getD (3 - 3) 0
          else 0)
        (([10, 20, 30, 40] : List Nat).getD 3 0)
        (if 3 ≤ 3 then ([10, 20, 30, 40] : List Nat).getD (3 - 3) 0
          else 0)).toNat) % 256) ∧
    ((5 : Int) + 9 - 8 - paethPredictor 5 9 8).natAbs ≤ ((5 : Int) + 9 - 8 - 5).natAbs :=
  ⟨C6_png_scanline_filters.1 3 [10, 20, 30, 40] [100, 6, 7, 200] 3 (by decide)
      (by decide),
   C6_png_scanline_filters.2.1 3 [10, 20, 30, 40] [100, 6, 7, 200] 3 (by decide)
      (by decide),
   (C6_png_scanline_filters.2.2 5 9 8).2.1⟩

/-! ### WAV decoding (wav-codec.ts, decodeWav)

`Uint8Array` indexing past the end of the buffer is an out-of-bounds access
that yields `undefined` in JS (`String.fromCharCode` then coerces it to 0);
`DataView` reads are bounds-checked and throw a `RangeError` *before* touching
any byte.  Every function below therefore returns, alongside its result, the
log of byte indices it actually read: unchecked `Uint8Array` reads are always
logged, `DataView` reads only when in bounds (out of bounds they throw and
read nothing). -/

/-- Accumulated chunk-walker state (`sampleRate`, `channels`, `bitsPerSample`,
`dataOffset`, `dataSize`, all initialised to 0). -/
structure WavChunks where
  sampleRate : Nat
  channels : Nat
  bitsPerSample : Nat
  dataOffset : Nat
  dataSize : Nat
  deriving Repr, DecidableEq

/-- `DataView.getUint32(off, true)`: bounds-checked little-endian read. -/
def dvU32LE (data : List Nat) (off : Nat) : Option Nat :=
  if off + 4 ≤ data.length then
    some (data.getD off 0 + 256 * data.getD (off + 1) 0 +
      65536 * data.getD (off + 2) 0 + 16777216 * data.getD (off + 3) 0)
  else none

/-- `DataView.getUint16(off, true)`: bounds-checked little-endian read. -/
def dvU16LE (data : List Nat) (off : Nat) : Option Nat :=
  if off + 2 ≤ data.length then some (data.getD off 0 + 256 * data.getD (off + 1) 0)
  else none

def RANGE_ERROR : String := "RangeError: Offset is outside the bounds of the DataView"

/-- The chunk-walking `while (offset < data.length)` loop of `decodeWav`.
The loop advances by at least 8 per iteration, so `data.length + 1` units of
fuel always suffice; the fuel-exhaustion branch is unreachable for the fuel
`decodeWav` supplies. -/
def walkChunks (data : List Nat) :
    Nat → Nat → WavChunks → Except String WavChunks × List Nat
  | 0, _, st => (.ok st, [])
  | fuel + 1, offset, st =>
    if offset < data.length then
      let idLog := [offset, offset + 1, offset + 2, offset + 3]
      let c0 := data.getD offset 0
      let c1 := data.getD (offset + 1) 0
      let c2 := data.getD (offset + 2) 0
      let c3 := data.getD (offset + 3) 0
      match dvU32LE data (offset + 4) with
      | none => (.error RANGE_ERROR, idLog)
      | some chunkSize =>
        let log0 := idLog ++ [offset + 4, offset + 5, offset + 6, offset + 7]
        let offs := offset + 8
        -- "fmt " = 0x66 0x6D 0x74 0x20
        if c0 = 0x66 ∧ c1 = 0x6D ∧ c2 = 0x74 ∧ c3 = 0x20 then
          match dvU16LE data offs with
          | none => (.error RANGE_ERROR, log0)
          | some audioFormat =>
            let log1 := log0 ++ [offs, offs + 1]
            if audioFormat ≠ 1 then
              (.error s!"Unsupported audio format: {audioFormat}. Only PCM (1) is supported.",
                log1)
            else
              match dvU16LE data (offs + 2) with
              | none => (.error RANGE_ERROR, log1)
              | some channels =>
                let log2 := log1 ++ [offs + 2, offs + 3]
                match dvU32LE data (offs + 4) with
                | none => (.error RANGE_ERROR, log2)
                | some sampleRate =>
                  let log3 := log2 ++ [offs + 4, offs + 5, offs + 6, offs + 7]
                  match dvU16LE data (offs + 14) with
                  | none => (.error RANGE_ERROR, log3)
                  | some bitsPerSample =>
                    let log4 := log3 ++ [offs + 14, offs + 15]
                    if bitsPerSample ≠ 16 then
                      (.error s!"Unsupported bit depth: {bitsPerSample}. Only 16-bit is supported.",
                        log4)
                    else
                      let nextOffset := offs + chunkSize +
                        (if chunkSize % 2 ≠ 0 then 1 else 0)
                      let res := walkChunks data fuel nextOffset
                        { st with
                          sampleRate := sampleRate
                          channels := channels
                          bitsPerSample := bitsPerSample }
                      (res.1, log4 ++ res.2)
        -- "data" = 0x64 0x61 0x74 0x61
        else if c0 = 0x64 ∧ c1 = 0x61 ∧ c2 = 0x74 ∧ c3 = 0x61 then
          let nextOffset := offs + chunkSize + (if chunkSize % 2 ≠ 0 then 1 else 0)
          let res := walkChunks data fuel nextOffset
            { st with dataOffset := offs, dataSize := chunkSize }
          (res.1, log0 ++ res.2)
        else
          let nextOffset := offs + chunkSize + (if chunkSize % 2 ≠ 0 then 1 else 0)
          let res := walkChunks data fuel nextOffset st
          (res.1, log0 ++ res.2)
    else (.ok st, [])

/-- The sample-reading loop: `view.getInt16(dataOffset + i*2, true)` for
`i < numSamples`, each read bounds-checked by the DataView; the first
out-of-bounds read throws.  Samples are returned as 16-bit patterns. -/
def readSamples (data : List Nat) : Nat → Nat → Option (List Nat) × List Nat
  | _, 0 => (some [], [])
  | off, n + 1 =>
    if off + 2 ≤ data.length then
      let s := data.getD off 0 + 256 * data.getD (off + 1) 0
      let res := readSamples data (off + 2) n
      (res.1.map (s :: ·), off :: (off + 1) :: res.2)
    else (none, [])

/-- `decodeWav`: header length check, RIFF/WAVE markers, chunk walk, missing
fmt/data check, `new Int16Array(dataSize / 2)` (an odd `dataSize` gives a
non-integer length and throws a `RangeError`), then the sample loop.  Returns
the decode result together with the log of byte indices read. -/
def decodeWav (data : List Nat) : Except String WavData × List Nat :=
  if data.length < 44 then
    (.error "Invalid WAV file: file too small (corrupted or truncated)", [])
  else
    let riffLog := [0, 1, 2, 3]
    -- "RIFF" = 0x52 0x49 0x46 0x46
    if ¬(data.getD 0 0 = 0x52 ∧ data.getD 1 0 = 0x49 ∧ data.getD 2 0 = 0x46 ∧
        data.getD 3 0 = 0x46) then
      (.error "Invalid WAV file: missing RIFF header", riffLog)
    else
      let waveLog := riffLog ++ [8, 9, 10, 11]
      -- "WAVE" = 0x57 0x41 0x56 0x45
      if ¬(data.getD 8 0 = 0x57 ∧ data.getD 9 0 = 0x41 ∧ data.getD 10 0 = 0x56 ∧
          data.getD 11 0 = 0x45) then
        (.error "Invalid WAV file: missing WAVE marker", waveLog)
      else
        match walkChunks data (data.length + 1) 12 ⟨0, 0, 0, 0, 0⟩ with
        | (.error e, log) => (.error e, waveLog ++ log)
        | (.ok st, log) =>
          if st.dataOffset = 0 ∨ st.sampleRate = 0 then
            (.error "Invalid WAV file: missing fmt or data chunk", waveLog ++ log)
          else if st.dataSize % 2 ≠ 0 then
            (.error "RangeError: invalid typed array length", waveLog ++ log)
          else
            match readSamples data st.dataOffset (st.dataSize / 2) with
            | (none, slog) => (.error RANGE_ERROR, waveLog ++ log ++ slog)
            | (some samples, slog) =>
              (.ok ⟨samples, st.sampleRate, st.channels, st.bitsPerSample⟩,
                waveLog ++ log ++ slog)

theorem dvU32LE_bound {data : List Nat} {o v : Nat} (h : dvU32LE data o = some v) :
    o + 4 ≤ data.length := by
  by_cases hb : o + 4 ≤ data.length
  · exact hb
  · rw [dvU32LE, if_neg hb] at h
    cases h

theorem dvU16LE_bound {data : List Nat} {o v : Nat} (h : dvU16LE data o = some v) :
    o + 2 ≤ data.length := by
  by_cases hb : o + 2 ≤ data.length
  · exact hb
  · rw [dvU16LE, if_neg hb] at h
    cases h

theorem readSamples_some_bounds (data : List Nat) : ∀ (n off : Nat),
    (readSamples data off n).1.isSome = true →
    ∀ i ∈ (readSamples data off n).2, i < data.length := by
  intro n
  induction n with
  | zero =>
    intro off _ i hi
    rw [readSamples] at hi
    simp at hi
  | succ n ih =>
    intro off hsome i hi
    rw [readSamples] at hsome hi
    by_cases hb : off + 2 ≤ data.length
    · rw [if_pos hb] at hsome hi
      simp only [Option.isSome_map'] at hsome
      simp only [List.mem_cons] at hi
      rcases hi with rfl | rfl | hi
      · omega
      · omega
      · exact ih (off + 2) hsome i hi
    · rw [if_neg hb] at hsome
      simp at hsome

/-- Every byte index the chunk walker logs during a walk that completes
without throwing lies inside the buffer: an iteration only proceeds past its
`DataView` reads when they are in bounds, and those bounds cover the four
unchecked chunk-id reads as well. -/
theorem walkChunks_ok_bounds (data : List Nat) : ∀ (fuel offset : Nat) (st : WavChunks),
    (∃ st', (walkChunks data fuel offset st).1 = .ok st') →
    ∀ i ∈ (walkChunks data fuel offset st).2, i < data.length := by
  intro fuel
  induction fuel with
  | zero =>
    intro offset st _ i hi
    rw [walkChunks] at hi
    simp at hi
  | succ fuel ih =>
    intro offset st hok i hi
    rw [walkChunks] at hok hi
    by_cases hoff : offset < data.length
    · rw [if_pos hoff] at hok hi
      cases hdv : dvU32LE data (offset + 4) with
      | none =>
        simp only [hdv] at hok
        obtain ⟨st', hst'⟩ := hok
        cases hst'
      | some chunkSize =>
        have hb8 : offset + 8 ≤ data.length := by
          have := dvU32LE_bound hdv
          omega
        simp only [hdv] at hok hi
        by_cases hfmt : data.getD offset 0 = 0x66 ∧ data.getD (offset + 1) 0 = 0x6D ∧
            data.getD (offset + 2) 0 = 0x74 ∧ data.getD (offset + 3) 0 = 0x20
        · rw [if_pos hfmt] at hok hi
          cases haf : dvU16LE data (offset + 8) with
          | none =>
            simp only [haf] at hok
            obtain ⟨st', hst'⟩ := hok
            cases hst'
          | some audioFormat =>
            have hbaf : offset + 8 + 2 ≤ data.length := dvU16LE_bound haf
            simp only [haf] at hok hi
            by_cases haf1 : audioFormat ≠ 1
            · rw [if_pos haf1] at hok hi
              obtain ⟨st', hst'⟩ := hok
              cases hst'
            · rw [if_neg haf1] at hok hi
              cases hch : dvU16LE data (offset + 8 + 2) with
              | none =>
                simp only [hch] at hok
                obtain ⟨st', hst'⟩ := hok
                cases hst'
              | some channels =>
                have hbch : offset + 8 + 2 + 2 ≤ data.length := dvU16LE_bound hch
                simp only [hch] at hok hi
                cases hsr : dvU32LE data (offset + 8 + 4) with
                | none =>
                  simp only [hsr] at hok
                  obtain ⟨st', hst'⟩ := hok
                  cases hst'
                | some sampleRate =>
                  have hbsr : offset + 8 + 4 + 4 ≤ data.length := dvU32LE_bound hsr
                  simp only [hsr] at hok hi
                  cases hbps : dvU16LE data (offset + 8 + 14) with
                  | none =>
                    simp only [hbps] at hok
                    obtain ⟨st', hst'⟩ := hok
                    cases hst'
                  | some bitsPerSample =>
                    have hbbps : offset + 8 + 14 + 2 ≤ data.length :=
                      dvU16LE_bound hbps
                    simp only [hbps] at hok hi
                    by_cases hb16 : bitsPerSample ≠ 16
                    · rw [if_pos hb16] at hok hi
                      obtain ⟨st', hst'⟩ := hok
                      cases hst'
                    · rw [if_neg hb16] at hok hi
                      simp only [List.mem_append, List.mem_cons, List.not_mem_nil,
                        or_false] at hi
                      rcases hi with ((((((rfl | rfl | rfl | rfl) |
                          (rfl | rfl | rfl | rfl)) | (rfl | rfl)) | (rfl | rfl)) |
                          (rfl | rfl | rfl | rfl)) | (rfl | rfl)) | hi
                      all_goals try omega
                      exact ih _ _ hok i hi
        · rw [if_neg hfmt] at hok hi
          by_cases hdat : data.getD offset 0 = 0x64 ∧ data.getD (offset + 1) 0 = 0x61 ∧
              data.getD (offset + 2) 0 = 0x74 ∧ data.getD (offset + 3) 0 = 0x61
          · rw [if_pos hdat] at hok hi
            simp only [List.mem_append, List.mem_cons, List.not_mem_nil,
              or_false] at hi
            rcases hi with ((rfl | rfl | rfl | rfl) | (rfl | rfl | rfl | rfl)) | hi
            all_goals try omega
            exact ih _ _ hok i hi
          · rw [if_neg hdat] at hok hi
            simp only [List.mem_append, List.mem_cons, List.not_mem_nil,
              or_false] at hi
            rcases hi with ((rfl | rfl | rfl | rfl) | (rfl | rfl | rfl | rfl)) | hi
            all_goals try omega
            exact ih _ _ hok i hi
    · rw [if_neg hoff] at hi
      simp at hi

/-- Claim C10, amended: every byte index a *successful* `decodeWav` run reads
— header, chunk walk and sample loop — lies inside the buffer.  In
particular, a `data` chunk whose declared size extends past the end of the
file never yields samples read out of bounds: the bounds-checked
`DataView.getInt16` throws first.  (A run that throws may still have indexed
the `Uint8Array` past its end while reading a chunk id, which is what the
original claim ruled out; see the counterexample.) -/
theorem C10_wav_decode_bounds :
    ∀ (data : List Nat) (wav : WavData),
      (decodeWav data).1 = .ok wav →
      ∀ i ∈ (decodeWav data).2, i < data.length := by
  intro data wav hok i hi
  rw [decodeWav] at hok hi
  by_cases h44 : data.length < 44
  · rw [if_pos h44] at hok
    cases hok
  · rw [if_neg h44] at hok hi
    by_cases hriff : data.getD 0 0 = 0x52 ∧ data.getD 1 0 = 0x49 ∧
        data.getD 2 0 = 0x46 ∧ data.getD 3 0 = 0x46
    · rw [if_neg (not_not_intro hriff)] at hok hi
      by_cases hwave : data.getD 8 0 = 0x57 ∧ data.getD 9 0 = 0x41 ∧
          data.getD 10 0 = 0x56 ∧ data.getD 11 0 = 0x45
      · rw [if_neg (not_not_intro hwave)] at hok hi
        cases hwc : walkChunks data (data.length + 1) 12 ⟨0, 0, 0, 0, 0⟩ with
        | mk res log =>
          cases res with
          | error e =>
            simp only [hwc] at hok
            simp at hok
          | ok st =>
            simp only [hwc] at hok hi
            have hwalkok : ∃ st', (walkChunks data (data.length + 1) 12
                ⟨0, 0, 0, 0, 0⟩).1 = .ok st' := ⟨st, by rw [hwc]⟩
            have hwalkmem : ∀ j ∈ log, j < data.length := by
              intro j hj
              refine walkChunks_ok_bounds data (data.length + 1) 12 ⟨0, 0, 0, 0, 0⟩
                hwalkok j ?_
              rw [hwc]
              exact hj
            by_cases hmiss : st.dataOffset = 0 ∨ st.sampleRate = 0
            · rw [if_pos hmiss] at hok
              cases hok
            · rw [if_neg hmiss] at hok hi
              by_cases hodd : st.dataSize % 2 ≠ 0
              · rw [if_pos hodd] at hok
                cases hok
              · rw [if_neg hodd] at hok hi
                cases hrs : readSamples data st.dataOffset (st.dataSize / 2) with
                | mk rsamples slog =>
                  cases rsamples with
                  | none =>
                    simp only [hrs] at hok
                    simp at hok
                  | some samples =>
                    simp only [hrs] at hi
                    have hslogmem : ∀ j ∈ slog, j < data.length := by
                      intro j hj
                      refine readSamples_some_bounds data (st.dataSize / 2)
                        st.dataOffset ?_ j ?_
                      · rw [hrs]
                        rfl
                      · rw [hrs]
                        exact hj
                    simp only [List.mem_append, List.mem_cons, List.not_mem_nil,
                      or_false] at hi
                    rcases hi with (((rfl | rfl | rfl | rfl) |
                        (rfl | rfl | rfl | rfl)) | hi) | hi
                    · omega
                    · omega
                    · omega
                    · omega
                    · omega
                    · omega
                    · omega
                    · omega
                    · exact hwalkmem i hi
                    · exact hslogmem i hi
      · rw [if_pos hwave] at hok
        cases hok
    · rw [if_pos hriff] at hok
      cases hok

/-- Witness for C10: a well-formed 48-byte PCM WAV (one `fmt ` chunk, one
4-byte `data` chunk holding two samples) decodes successfully, and the sample
read at index 44 is inside the buffer. -/
theorem C10_witness :
    (44 : Nat) < ([82, 73, 70, 70, 36, 0, 0, 0, 87, 65, 86, 69,
      102, 109, 116, 32, 16, 0, 0, 0, 1, 0, 1, 0, 68, 172, 0, 0, 136, 88, 1, 0,
      2, 0, 16, 0, 100, 97, 116, 97, 4, 0, 0, 0, 1, 0, 2, 0] : List Nat).length :=
  C10_wav_decode_bounds
    [82, 73, 70, 70, 36, 0, 0, 0, 87, 65, 86, 69,
      102, 109, 116, 32, 16, 0, 0, 0, 1, 0, 1, 0, 68, 172, 0, 0, 136, 88, 1, 0,
      2, 0, 16, 0, 100, 97, 116, 97, 4, 0, 0, 0, 1, 0, 2, 0]
    ⟨[1, 2], 44100, 1, 16⟩ (by rfl) 44 (by decide)

/-- Counterexample to C10 as stated: a 45-byte file that passes the RIFF and
WAVE checks and whose junk chunk ends at offset 44 makes the walker read the
chunk id at indices 44..47 — indices 45, 46 and 47 are out of bounds
(`Uint8Array` indexing yields `undefined`), after which the bounds-checked
`DataView` read throws.  So not every byte access lies within the buffer. -/
theorem C10_counterexample :
    (decodeWav [82, 73, 70, 70, 37, 0, 0, 0, 87, 65, 86, 69,
      106, 117, 110, 107, 24, 0, 0, 0,
      0, 0, 0, 0, 0, 0, 0, 0, 0, 0, 0, 0, 0, 0, 0, 0, 0, 0, 0, 0, 0, 0, 0, 0,
      0]).1 = .error RANGE_ERROR ∧
    (45 ∈ (decodeWav [82, 73, 70, 70, 37, 0, 0, 0, 87, 65, 86, 69,
      106, 117, 110, 107, 24, 0, 0, 0,
      0, 0, 0, 0, 0, 0, 0, 0, 0, 0, 0, 0, 0, 0, 0, 0, 0, 0, 0, 0, 0, 0, 0, 0,
      0]).2) ∧
    ([82, 73, 70, 70, 37, 0, 0, 0, 87, 65, 86, 69,
      106, 117, 110, 107, 24, 0, 0, 0,
      0, 0, 0, 0, 0, 0, 0, 0, 0, 0, 0, 0, 0, 0, 0, 0, 0, 0, 0, 0, 0, 0, 0, 0,
      0] : List Nat).length = 45 := ⟨rfl, by decide, rfl⟩

/-! ### Payload container (payload-helper.ts)

JS strings are modelled as lists of UTF-16 code units (`Nat` below 2^16).
The platform builtins the container uses — `JSON.stringify`/`JSON.parse` on
the record shape it serialises, `TextEncoder`/`TextDecoder` (UTF-8), and
decimal number formatting — are modelled executably below, following the
ECMAScript and WHATWG specifications on the inputs the container produces. -/

inductive MetaType
  | text
  | file
  deriving Repr, DecidableEq

/-- A JS `number` as the metadata timestamp can hold it: an integral finite
value (exact for |n| below 2^53) or one of the non-finite values `NaN`,
`Infinity`, `-Infinity`.  All three non-finite values pass the packer's
`typeof === 'number'` check, yet `JSON.stringify` serialises each of them as
the literal `null`. -/
inductive JSNum
  | int : Int → JSNum
  | nan : JSNum
  | inf : JSNum
  | negInf : JSNum
  deriving Repr, DecidableEq

/-- `PayloadMetadata`: `type`, `timestamp` (a JS number), optional `name` and
`mimeType` strings. -/
structure PayloadMetadata where
  type : MetaType
  timestamp : JSNum
  name : Option (List Nat) := none
  mimeType : Option (List Nat) := none
  deriving Repr, DecidableEq

/-- The character class `[<>:"/\\|?*\u0000-\u001f]` of the filename
sanitiser. -/
def isBadNameChar (c : Nat) : Bool :=
  c = 60 || c = 62 || c = 58 || c = 34 || c = 47 || c = 92 || c = 124 ||
    c = 63 || c = 42 || c ≤ 31

/-- `name.slice(0, 255).replace(/[<>:"\/\\|?*\u0000-\u001f]/g, '_')`. -/
def sanitizeName (s : List Nat) : List Nat :=
  (s.take 255).map (fun c => if isBadNameChar c then 95 else c)

/-- The sanitisation step of `packPayload`: the `type` is coerced to
`'text'`/`'file'` (the identity on the typed model), the timestamp is kept
(it is always a number here), a truthy (nonempty) `name` is truncated to 255
UTF-16 units and character-filtered, a truthy `mimeType` is truncated to 100
units. -/
def sanitizeMeta (m : PayloadMetadata) : PayloadMetadata :=
  { type := m.type
    timestamp := m.timestamp
    name := match m.name with
      | some s => if s ≠ [] then some (sanitizeName s) else none
      | none => none
    mimeType := match m.mimeType with
      | some s => if s ≠ [] then some (s.take 100) else none
      | none => none }

/-! #### Decimal formatting of the timestamp -/

/-- Decimal digits of `n`, most significant first, as character codes.  Fueled
structural recursion (`n` itself is always enough fuel), so that the kernel
can evaluate it. -/
def natDigitsAux : Nat → Nat → List Nat
  | 0, _ => []
  | fuel + 1, n => if n < 10 then [48 + n] else natDigitsAux fuel (n / 10) ++ [48 + n % 10]

def natDigits (n : Nat) : List Nat := natDigitsAux (n + 1) n

/-- `JSON.stringify` of an integral JS number (exact for |n| below 2^53). -/
def intUnits (n : Int) : List Nat :=
  if n < 0 then 45 :: natDigits n.natAbs else natDigits n.toNat

/-- Units of the JSON literal `null`. -/
def NULL_UNITS : List Nat := [110, 117, 108, 108]

/-- `JSON.stringify` of the timestamp value: finite numbers as decimal
integers, `NaN` and the infinities as the literal `null`. -/
def tsUnits : JSNum → List Nat
  | .int n => intUnits n
  | .nan => NULL_UNITS
  | .inf => NULL_UNITS
  | .negInf => NULL_UNITS

/-! #### JSON string escaping (ES2019 well-formed `JSON.stringify`) -/

def hexDigit (n : Nat) : Nat := if n < 10 then 48 + n else 87 + n

def hex4 (n : Nat) : List Nat :=
  [hexDigit (n / 4096 % 16), hexDigit (n / 256 % 16), hexDigit (n / 16 % 16),
    hexDigit (n % 16)]

/-- One code unit of `QuoteJSONString`, outside a surrogate pair: `"` and `\`
get two-character escapes, the control characters b/t/n/f/r likewise, other
controls `\u00XX`, lone surrogates `\uXXXX` (well-formed `JSON.stringify`,
ES2019), everything else passes through. -/
def escapeOne (c : Nat) : List Nat :=
  if c = 34 then [92, 34]
  else if c = 92 then [92, 92]
  else if c = 8 then [92, 98]
  else if c = 9 then [92, 116]
  else if c = 10 then [92, 110]
  else if c = 12 then [92, 102]
  else if c = 13 then [92, 114]
  else if c < 32 then 92 :: 117 :: hex4 c
  else if 0xD800 ≤ c ∧ c ≤ 0xDFFF then 92 :: 117 :: hex4 c
  else [c]

/-- `QuoteJSONString` over a whole unit list: paired surrogates pass through
literally, every other unit is escaped by `escapeOne`. -/
def escapeUnits : List Nat → List Nat
  | [] => []
  | [c] => escapeOne c
  | c :: c2 :: rest =>
    if 0xD800 ≤ c ∧ c ≤ 0xDBFF ∧ 0xDC00 ≤ c2 ∧ c2 ≤ 0xDFFF then
      c :: c2 :: escapeUnits rest
    else escapeOne c ++ escapeUnits (c2 :: rest)

/-! #### UTF-8 (`TextEncoder`/`TextDecoder`, WHATWG) -/

/-- UTF-8 bytes of one code point. -/
def utf8Char (cp : Nat) : List Nat :=
  if cp < 0x80 then [cp]
  else if cp < 0x800 then [0xC0 + cp / 64, 0x80 + cp % 64]
  else if cp < 0x10000 then
    [0xE0 + cp / 4096, 0x80 + cp / 64 % 64, 0x80 + cp % 64]
  else [0xF0 + cp / 262144, 0x80 + cp / 4096 % 64, 0x80 + cp / 64 % 64,
    0x80 + cp % 64]

/-- One unpaired code unit of `TextEncoder.encode`: a lone surrogate becomes
U+FFFD, everything else is UTF-8 encoded as itself. -/
def utf8One (c : Nat) : List Nat :=
  if 0xD800 ≤ c ∧ c ≤ 0xDFFF then utf8Char 0xFFFD else utf8Char c

/-- `TextEncoder.encode`: surrogate pairs combine to supplementary code
points, lone surrogates become U+FFFD. -/
def utf8Encode : List Nat → List Nat
  | [] => []
  | [c] => utf8One c
  | c :: c2 :: rest =>
    if 0xD800 ≤ c ∧ c ≤ 0xDBFF ∧ 0xDC00 ≤ c2 ∧ c2 ≤ 0xDFFF then
      utf8Char (0x10000 + (c - 0xD800) * 1024 + (c2 - 0xDC00)) ++ utf8Encode rest
    else utf8One c ++ utf8Encode (c2 :: rest)

/-- UTF-16 units of a code point (supplementary points split into a surrogate
pair). -/
def cpToUnits (cp : Nat) : List Nat :=
  if cp < 0x10000 then [cp]
  else [0xD800 + (cp - 0x10000) / 1024, 0xDC00 + (cp - 0x10000) % 1024]

/-- A second byte valid after a 3-byte lead `b` (WHATWG lead-specific
ranges: E0 → A0..BF, ED → 80..9F, otherwise 80..BF). -/
def utf8Lead3Ok (b b2 : Nat) : Bool :=
  decide ((b = 0xE0 ∧ 0xA0 ≤ b2 ∧ b2 ≤ 0xBF) ∨ (b = 0xED ∧ 0x80 ≤ b2 ∧ b2 ≤ 0x9F) ∨
    (b ≠ 0xE0 ∧ b ≠ 0xED ∧ 0x80 ≤ b2 ∧ b2 ≤ 0xBF))

/-- A second byte valid after a 4-byte lead `b` (F0 → 90..BF, F4 → 80..8F,
otherwise 80..BF). -/
def utf8Lead4Ok (b b2 : Nat) : Bool :=
  decide ((b = 0xF0 ∧ 0x90 ≤ b2 ∧ b2 ≤ 0xBF) ∨ (b = 0xF4 ∧ 0x80 ≤ b2 ∧ b2 ≤ 0x8F) ∨
    (b ≠ 0xF0 ∧ b ≠ 0xF4 ∧ 0x80 ≤ b2 ∧ b2 ≤ 0xBF))

/-- A plain continuation byte. -/
def utf8ContOk (x : Nat) : Bool := decide (0x80 ≤ x ∧ x ≤ 0xBF)

/-- `TextDecoder.decode` (UTF-8, non-fatal, WHATWG): well-formed sequences
decode to their code points; on a byte outside its expected range the decoder
emits U+FFFD and reprocesses that byte; end of input inside a sequence emits
one U+FFFD. -/
def utf8Decode : List Nat → List Nat
  | [] => []
  | [b] => if b < 0x80 then [b] else [0xFFFD]
  | [b, b2] =>
    if b < 0x80 then b :: utf8Decode [b2]
    else if 0xC2 ≤ b ∧ b ≤ 0xDF then
      if utf8ContOk b2 then [(b - 0xC0) * 64 + (b2 - 0x80)]
      else 0xFFFD :: utf8Decode [b2]
    else if 0xE0 ≤ b ∧ b ≤ 0xEF then
      if utf8Lead3Ok b b2 then [0xFFFD]
      else 0xFFFD :: utf8Decode [b2]
    else if 0xF0 ≤ b ∧ b ≤ 0xF4 then
      if utf8Lead4Ok b b2 then [0xFFFD]
      else 0xFFFD :: utf8Decode [b2]
    else 0xFFFD :: utf8Decode [b2]
  | [b, b2, b3] =>
    if b < 0x80 then b :: utf8Decode [b2, b3]
    else if 0xC2 ≤ b ∧ b ≤ 0xDF then
      if utf8ContOk b2 then ((b - 0xC0) * 64 + (b2 - 0x80)) :: utf8Decode [b3]
      else 0xFFFD :: utf8Decode [b2, b3]
    else if 0xE0 ≤ b ∧ b ≤ 0xEF then
      if utf8Lead3Ok b b2 then
        if utf8ContOk b3 then [(b - 0xE0) * 4096 + (b2 - 0x80) * 64 + (b3 - 0x80)]
        else 0xFFFD :: utf8Decode [b3]
      else 0xFFFD :: utf8Decode [b2, b3]
    else if 0xF0 ≤ b ∧ b ≤ 0xF4 then
      if utf8Lead4Ok b b2 then
        if utf8ContOk b3 then [0xFFFD]
        else 0xFFFD :: utf8Decode [b3]
      else 0xFFFD :: utf8Decode [b2, b3]
    else 0xFFFD :: utf8Decode [b2, b3]
  | b :: b2 :: b3 :: b4 :: rest =>
    if b < 0x80 then b :: utf8Decode (b2 :: b3 :: b4 :: rest)
    else if 0xC2 ≤ b ∧ b ≤ 0xDF then
      if utf8ContOk b2 then ((b - 0xC0) * 64 + (b2 - 0x80)) :: utf8Decode (b3 :: b4 :: rest)
      else 0xFFFD :: utf8Decode (b2 :: b3 :: b4 :: rest)
    else if 0xE0 ≤ b ∧ b ≤ 0xEF then
      if utf8Lead3Ok b b2 then
        if utf8ContOk b3 then
          ((b - 0xE0) * 4096 + (b2 - 0x80) * 64 + (b3 - 0x80)) :: utf8Decode (b4 :: rest)
        else 0xFFFD :: utf8Decode (b3 :: b4 :: rest)
      else 0xFFFD :: utf8Decode (b2 :: b3 :: b4 :: rest)
    else if 0xF0 ≤ b ∧ b ≤ 0xF4 then
      if utf8Lead4Ok b b2 then
        if utf8ContOk b3 then
          if utf8ContOk b4 then
            cpToUnits ((b - 0xF0) * 262144 + (b2 - 0x80) * 4096 + (b3 - 0x80) * 64 +
              (b4 - 0x80)) ++ utf8Decode rest
          else 0xFFFD :: utf8Decode (b4 :: rest)
        else 0xFFFD :: utf8Decode (b3 :: b4 :: rest)
      else 0xFFFD :: utf8Decode (b2 :: b3 :: b4 :: rest)
    else 0xFFFD :: utf8Decode (b2 :: b3 :: b4 :: rest)

/-- Units that denote a well-formed UTF-16 string: every unit below 2^16,
high surrogates immediately followed by low surrogates, no stray low
surrogates. -/
def wellFormedUnits : List Nat → Bool
  | [] => true
  | [c] => decide (c < 0xD800 ∨ (0xE000 ≤ c ∧ c < 0x10000))
  | c :: c2 :: rest =>
    if 0xD800 ≤ c ∧ c ≤ 0xDBFF then
      decide (0xDC00 ≤ c2 ∧ c2 ≤ 0xDFFF) && wellFormedUnits rest
    else decide (c < 0xD800 ∨ (0xE000 ≤ c ∧ c < 0x10000)) && wellFormedUnits (c2 :: rest)

/-! #### The serialised metadata object

`JSON.stringify` on the sanitised record emits the keys in insertion order —
`type`, `timestamp`, then `name` and `mimeType` when present — with no
whitespace.  The fixed fragments below are the UTF-16 units of those literal
characters. -/

/-- Units of the opening fragment of the serialised object, up to and
including the quote that opens the type value. -/
def OPEN_TYPE : List Nat := [123, 34, 116, 121, 112, 101, 34, 58, 34]

/-- Units of the fragment between the type value and the timestamp value. -/
def TS_KEY : List Nat := [44, 34, 116, 105, 109, 101, 115, 116, 97, 109, 112, 34, 58]

/-- Units of the fragment that introduces a name value. -/
def NAME_KEY : List Nat := [44, 34, 110, 97, 109, 101, 34, 58, 34]

/-- Units of the fragment that introduces a mimeType value. -/
def MIME_KEY : List Nat := [44, 34, 109, 105, 109, 101, 84, 121, 112, 101, 34, 58, 34]

/-- Units of the string value of a `MetaType`. -/
def typeUnits : MetaType → List Nat
  | .text => [116, 101, 120, 116]
  | .file => [102, 105, 108, 101]

/-- Units of the legacy default filename `recovered_data.bin`. -/
def RECOVERED_NAME : List Nat :=
  [114, 101, 99, 111, 118, 101, 114, 101, 100, 95, 100, 97, 116, 97, 46, 98, 105, 110]

/-- `JSON.stringify(sanitizedMeta)` as UTF-16 units. -/
def jsonOfMeta (m : PayloadMetadata) : List Nat :=
  OPEN_TYPE ++ typeUnits m.type ++ [34] ++ TS_KEY ++ tsUnits m.timestamp ++
    (match m.name with
      | some s => NAME_KEY ++ escapeUnits s ++ [34]
      | none => []) ++
    (match m.mimeType with
      | some s => MIME_KEY ++ escapeUnits s ++ [34]
      | none => []) ++
    [125]

/-! #### JSON parsing (`JSON.parse` on the strings the serialiser emits) -/

/-- The numeric value of a hex digit (`JSON.parse` accepts both cases). -/
def hexVal (c : Nat) : Option Nat :=
  if 48 ≤ c ∧ c ≤ 57 then some (c - 48)
  else if 97 ≤ c ∧ c ≤ 102 then some (c - 87)
  else if 65 ≤ c ∧ c ≤ 70 then some (c - 55)
  else none

/-- Consume an expected literal fragment from the front of the input. -/
def dropLit (lit s : List Nat) : Option (List Nat) :=
  if s.take lit.length = lit then some (s.drop lit.length) else none

/-- The body of a JSON string after its opening quote: literal units up to the
closing quote, two-character escapes, and `\uXXXX`; raw control characters
are a syntax error.  Returns the decoded units and the input after the
closing quote. -/
def parseString : List Nat → Option (List Nat × List Nat)
  | [] => none
  | c :: rest =>
    if c = 34 then some ([], rest)
    else if c = 92 then
      match rest with
      | [] => none
      | e :: rest2 =>
        if e = 34 then (parseString rest2).map (fun p => (34 :: p.1, p.2))
        else if e = 92 then (parseString rest2).map (fun p => (92 :: p.1, p.2))
        else if e = 47 then (parseString rest2).map (fun p => (47 :: p.1, p.2))
        else if e = 98 then (parseString rest2).map (fun p => (8 :: p.1, p.2))
        else if e = 116 then (parseString rest2).map (fun p => (9 :: p.1, p.2))
        else if e = 110 then (parseString rest2).map (fun p => (10 :: p.1, p.2))
        else if e = 102 then (parseString rest2).map (fun p => (12 :: p.1, p.2))
        else if e = 114 then (parseString rest2).map (fun p => (13 :: p.1, p.2))
        else if e = 117 then
          match rest2 with
          | h1 :: h2 :: h3 :: h4 :: rest6 =>
            match hexVal h1, hexVal h2, hexVal h3, hexVal h4 with
            | some v1, some v2, some v3, some v4 =>
              (parseString rest6).map
                (fun p => ((v1 * 4096 + v2 * 256 + v3 * 16 + v4) :: p.1, p.2))
            | _, _, _, _ => none
          | _ => none
        else none
    else if c < 32 then none
    else (parseString rest).map (fun p => (c :: p.1, p.2))

/-- Split the longest run of decimal digits off the front of the input. -/
def takeDigits : List Nat → List Nat × List Nat
  | [] => ([], [])
  | c :: rest =>
    if 48 ≤ c ∧ c ≤ 57 then
      let p := takeDigits rest
      (c :: p.1, p.2)
    else ([], c :: rest)

/-- The number denoted by a digit run. -/
def parseNatDigits (ds : List Nat) : Nat :=
  ds.foldl (fun a c => a * 10 + (c - 48)) 0

/-- A JSON integer (an optional minus sign and a digit run; the serialised
timestamps never carry fraction or exponent parts). -/
def parseNumber (s : List Nat) : Option (Int × List Nat) :=
  match s with
  | [] => none
  | c :: rest =>
    if c = 45 then
      let p := takeDigits rest
      if p.1 = [] then none else some (-(parseNatDigits p.1 : Int), p.2)
    else
      let p := takeDigits (c :: rest)
      if p.1 = [] then none else some ((parseNatDigits p.1 : Int), p.2)

/-- The parsed timestamp value of the emitted grammar: the JSON literal
`null` (the serialisation of a non-finite timestamp) or an integer. -/
def parseTsValue (s : List Nat) : Option (Option Int × List Nat) :=
  match dropLit NULL_UNITS s with
  | some rest => some (none, rest)
  | none => (parseNumber s).map (fun p => (some p.1, p.2))

/-- The metadata record as `JSON.parse` returns it: the type still a raw
string, the timestamp either a number (`some`) or the parsed `null`
(`none`), optional name and mimeType strings. -/
structure RawMeta where
  type : List Nat
  timestamp : Option Int
  name : Option (List Nat)
  mimeType : Option (List Nat)
  deriving Repr, DecidableEq

/-- Parse an optional string-valued field introduced by `key`; absence of the
key leaves the input untouched. -/
def parseOptStr (key s : List Nat) : Option (Option (List Nat) × List Nat) :=
  match dropLit key s with
  | none => some (none, s)
  | some t =>
    match parseString t with
    | none => none
    | some (v, rest) => some (some v, rest)

/-- `JSON.parse` on the object grammar the serialiser emits: the fixed
fragments in order, the two string values, the integer timestamp, the two
optional string fields, the closing brace, and no trailing input. -/
def jsonParseMeta (s : List Nat) : Option RawMeta :=
  match dropLit OPEN_TYPE s with
  | none => none
  | some s1 =>
    match parseString s1 with
    | none => none
    | some (ty, s2) =>
      match dropLit TS_KEY s2 with
      | none => none
      | some s3 =>
        match parseTsValue s3 with
        | none => none
        | some (ts, s4) =>
          match parseOptStr NAME_KEY s4 with
          | none => none
          | some (name, s5) =>
            match parseOptStr MIME_KEY s5 with
            | none => none
            | some (mime, s6) =>
              match dropLit [125] s6 with
              | none => none
              | some s7 => if s7 = [] then some ⟨ty, ts, name, mime⟩ else none

/-- `isValidMetadata` on a parsed record: the type string must be `text` or
`file`, and the timestamp must be a number — a parsed `null` (from a
serialised `NaN`/`Infinity` timestamp) fails `typeof === 'number'`;
name/mimeType are strings by parsing. -/
def isValidMetadata (m : RawMeta) : Bool :=
  (m.type = typeUnits .text || m.type = typeUnits .file) && m.timestamp.isSome

/-- The timestamp number a validated record denotes; the `null` arm is
unreachable behind `isValidMetadata`. -/
def tsOfParsed : Option Int → JSNum
  | some n => JSNum.int n
  | none => JSNum.nan

/-- The `MetaType` a valid raw type string denotes. -/
def metaTypeOfUnits (u : List Nat) : MetaType :=
  if u = typeUnits .text then .text else .file

/-! #### packPayload / unpackPayload -/

/-- `packPayload`: sanitise the metadata, serialise it to JSON and UTF-8,
reject serialisations over 10240 bytes (`Metadata too large`), and emit
`[version 1][metadata length LE u32][metadata bytes][payload]`. -/
def packPayload (data : List Nat) (metadata : PayloadMetadata) :
    Except String (List Nat) :=
  let metaBytes := utf8Encode (jsonOfMeta (sanitizeMeta metadata))
  if metaBytes.length > 10240 then .error "Metadata too large"
  else .ok ([1] ++ leU32 metaBytes.length ++ metaBytes ++ data)

/-- The result of unpacking: payload bytes and metadata. -/
structure UnpackedPayload where
  data : List Nat
  metadata : PayloadMetadata
  deriving Repr, DecidableEq

/-- `unpackPayload` (`now` stands for `Date.now()` in the legacy branch):
minimum length 5; a version byte other than 1 returns the whole buffer with
default legacy metadata; the metadata length must be nonzero, at most 10240
and in bounds; the metadata bytes must decode and parse to a valid record,
whose truthy name is re-sanitised; every failure throws
`Invalid payload format`. -/
def unpackPayload (now : Int) (buffer : List Nat) : Except String UnpackedPayload :=
  if buffer.length < 5 then .error "Invalid payload format"
  else if buffer.getD 0 0 ≠ 1 then
    .ok ⟨buffer, ⟨.file, JSNum.int now, some RECOVERED_NAME, none⟩⟩
  else
    let metaLen := readLeU32 buffer 1
    if metaLen = 0 ∨ metaLen > 10240 then .error "Invalid payload format"
    else if 5 + metaLen > buffer.length then .error "Invalid payload format"
    else
      match jsonParseMeta (utf8Decode ((buffer.drop 5).take metaLen)) with
      | none => .error "Invalid payload format"
      | some raw =>
        if isValidMetadata raw then
          .ok ⟨buffer.drop (5 + metaLen),
            ⟨metaTypeOfUnits raw.type, tsOfParsed raw.timestamp,
              (match raw.name with
                | some s => if s = [] then some s else some (sanitizeName s)
                | none => none),
              raw.mimeType⟩⟩
        else .error "Invalid payload format"

/-! #### Lemmas about the sanitiser -/

/-- The character substitution of the sanitiser is idempotent pointwise. -/
theorem sanitizeChar_idem (c : Nat) :
    (if isBadNameChar (if isBadNameChar c then 95 else c) then 95
      else if isBadNameChar c then 95 else c) = if isBadNameChar c then 95 else c := by
  by_cases h : isBadNameChar c = true
  · simp [h]
  · simp only [Bool.not_eq_true] at h
    simp [h]

/-- Sanitising a filename twice is the same as sanitising it once. -/
theorem sanitizeName_idem (s : List Nat) : sanitizeName (sanitizeName s) = sanitizeName s := by
  unfold sanitizeName
  rw [List.take_of_length_le, List.map_map]
  · apply List.map_congr_left
    intro c _
    exact sanitizeChar_idem c
  · rw [List.length_map]
    exact le_trans (List.length_take_le 255 s) (le_refl _)

/-- Sanitising keeps every unit below 2^16 when the input units are. -/
theorem sanitizeName_lt (s : List Nat) (h : ∀ c ∈ s, c < 65536) :
    ∀ c ∈ sanitizeName s, c < 65536 := by
  intro c hc
  unfold sanitizeName at hc
  obtain ⟨d, hd, hdc⟩ := List.mem_map.mp hc
  by_cases hb : isBadNameChar d = true
  · simp [hb] at hdc
    omega
  · simp only [Bool.not_eq_true] at hb
    simp [hb] at hdc
    exact hdc ▸ h d (List.mem_of_mem_take hd)

/-- Sanitising a nonempty filename yields a nonempty filename. -/
theorem sanitizeName_ne_nil (s : List Nat) (h : s ≠ []) : sanitizeName s ≠ [] := by
  unfold sanitizeName
  simp only [ne_eq, List.map_eq_nil_iff, List.take_eq_nil_iff]
  simp [h]

/-! #### Lemmas about decimal digits -/

/-- Digits produced by `natDigitsAux` are decimal digit characters. -/
theorem natDigitsAux_mem : ∀ (fuel n c : Nat), c ∈ natDigitsAux fuel n →
    48 ≤ c ∧ c ≤ 57 := by
  intro fuel
  induction fuel with
  | zero => intro n c hc; simp [natDigitsAux] at hc
  | succ f ih =>
    intro n c hc
    rw [natDigitsAux] at hc
    by_cases h10 : n < 10
    · rw [if_pos h10] at hc
      simp at hc
      omega
    · rw [if_neg h10] at hc
      rcases List.mem_append.mp hc with h | h
      · exact ih _ _ h
      · simp at h
        omega

/-- `natDigitsAux` with positive fuel never returns the empty list. -/
theorem natDigitsAux_ne_nil (fuel n : Nat) : natDigitsAux (fuel + 1) n ≠ [] := by
  rw [natDigitsAux]
  by_cases h10 : n < 10
  · simp [h10]
  · simp [h10]

/-- Folding the decimal accumulator over `natDigitsAux fuel n` appends the
digits of `n` to the accumulator. -/
theorem foldl_natDigitsAux : ∀ (fuel n a : Nat), n < fuel →
    (natDigitsAux fuel n).foldl (fun a c => a * 10 + (c - 48)) a =
      a * 10 ^ (natDigitsAux fuel n).length + n := by
  intro fuel
  induction fuel with
  | zero => intro n a h; omega
  | succ f ih =>
    intro n a h
    rw [natDigitsAux]
    by_cases h10 : n < 10
    · rw [if_pos h10]
      simp only [List.foldl_cons, List.foldl_nil, List.length_cons, List.length_nil,
        pow_succ, pow_zero, one_mul]
      omega
    · rw [if_neg h10]
      rw [List.foldl_append, List.length_append]
      have hdiv : n / 10 < f := by omega
      rw [ih (n / 10) a hdiv]
      simp only [List.foldl_cons, List.foldl_nil, List.length_cons, List.length_nil]
      rw [pow_succ]
      have h48 : 48 + n % 10 - 48 = n % 10 := by omega
      ring_nf
      omega

/-- Parsing the decimal digits of `n` returns `n`. -/
theorem parseNatDigits_natDigits (n : Nat) : parseNatDigits (natDigits n) = n := by
  unfold parseNatDigits natDigits
  rw [foldl_natDigitsAux (n + 1) n 0 (by omega)]
  ring

/-- `takeDigits` splits a digits-then-nondigit concatenation at the
boundary. -/
theorem takeDigits_append : ∀ (ds rest : List Nat),
    (∀ c ∈ ds, 48 ≤ c ∧ c ≤ 57) → ¬(48 ≤ rest.headD 0 ∧ rest.headD 0 ≤ 57) →
    takeDigits (ds ++ rest) = (ds, rest) := by
  intro ds
  induction ds with
  | nil =>
    intro rest _ hrest
    cases rest with
    | nil => rfl
    | cons c t =>
      simp only [List.headD_cons] at hrest
      simp [takeDigits, hrest]
  | cons c t ih =>
    intro rest hds hrest
    have hc : 48 ≤ c ∧ c ≤ 57 := hds c (List.mem_cons_self c t)
    simp only [List.cons_append, takeDigits, if_pos hc, List.append_eq]
    rw [ih rest (fun x hx => hds x (List.mem_cons_of_mem c hx)) hrest]

/-- `parseNumber` inverts the integer serialiser when what follows does not
begin with a digit. -/
theorem parseNumber_intUnits (n : Int) (rest : List Nat)
    (hrest : ¬(48 ≤ rest.headD 0 ∧ rest.headD 0 ≤ 57)) :
    parseNumber (intUnits n ++ rest) = some (n, rest) := by
  unfold intUnits
  by_cases hn : n < 0
  · rw [if_pos hn]
    obtain ⟨d, t, hdt⟩ : ∃ d t, natDigits n.natAbs = d :: t := by
      cases hd : natDigits n.natAbs with
      | nil => exact absurd hd (natDigitsAux_ne_nil _ _)
      | cons d t => exact ⟨d, t, rfl⟩
    have htd : takeDigits (natDigits n.natAbs ++ rest) = (natDigits n.natAbs, rest) :=
      takeDigits_append _ _ (fun c hc => natDigitsAux_mem _ _ c hc) hrest
    simp only [List.cons_append, parseNumber, if_true, eq_self_iff_true, htd]
    have hne : natDigits n.natAbs ≠ [] := natDigitsAux_ne_nil _ _
    rw [if_neg hne, parseNatDigits_natDigits]
    have hval : -(n.natAbs : Int) = n := by omega
    rw [hval]
  · rw [if_neg hn]
    obtain ⟨d, t, hdt⟩ : ∃ d t, natDigits n.toNat = d :: t := by
      cases hd : natDigits n.toNat with
      | nil => exact absurd hd (natDigitsAux_ne_nil _ _)
      | cons d t => exact ⟨d, t, rfl⟩
    have hd48 : 48 ≤ d ∧ d ≤ 57 :=
      natDigitsAux_mem _ _ d (hdt ▸ List.mem_cons_self d t)
    have htd : takeDigits (natDigits n.toNat ++ rest) = (natDigits n.toNat, rest) :=
      takeDigits_append _ _ (fun c hc => natDigitsAux_mem _ _ c hc) hrest
    rw [hdt] at htd ⊢
    simp only [List.cons_append] at htd ⊢
    simp only [parseNumber, if_neg (show ¬d = 45 by omega), htd]
    rw [if_neg (by simp : (d :: t : List Nat) ≠ [])]
    rw [← hdt, parseNatDigits_natDigits]
    have hval : (n.toNat : Int) = n := Int.toNat_of_nonneg (by omega)
    rw [hval]

/-! #### Lemmas about literal fragments and hex digits -/

/-- Dropping a literal fragment from a string that starts with it succeeds. -/
theorem dropLit_append (lit rest : List Nat) : dropLit lit (lit ++ rest) = some rest := by
  unfold dropLit
  rw [List.take_left, if_pos rfl, List.drop_left]

/-- `hexVal` inverts `hexDigit` on every hex digit value. -/
theorem hexVal_hexDigit : ∀ x : Nat, x < 16 → hexVal (hexDigit x) = some x := by
  decide

/-- Parsing a `\uXXXX` escape recovers the escaped unit. -/
theorem parseString_u (x : Nat) (hx : x < 65536) (t v r : List Nat)
    (ht : parseString t = some (v, r)) :
    parseString (92 :: 117 :: (hex4 x ++ t)) = some (x :: v, r) := by
  have e1 : hexVal (hexDigit (x / 4096 % 16)) = some (x / 4096 % 16) :=
    hexVal_hexDigit _ (by omega)
  have e2 : hexVal (hexDigit (x / 256 % 16)) = some (x / 256 % 16) :=
    hexVal_hexDigit _ (by omega)
  have e3 : hexVal (hexDigit (x / 16 % 16)) = some (x / 16 % 16) :=
    hexVal_hexDigit _ (by omega)
  have e4 : hexVal (hexDigit (x % 16)) = some (x % 16) := hexVal_hexDigit _ (by omega)
  rw [parseString.eq_def]
  simp [hex4, e1, e2, e3, e4, ht]
  omega

/-- Parsing the escape of one unit prepends that unit to the parse of the
remainder. -/
theorem parseString_escapeOne (c : Nat) (hc : c < 65536) (t v r : List Nat)
    (ht : parseString t = some (v, r)) :
    parseString (escapeOne c ++ t) = some (c :: v, r) := by
  unfold escapeOne
  by_cases h1 : c = 34
  · subst h1
    rw [if_pos rfl, List.cons_append, List.cons_append, List.nil_append,
      parseString.eq_def]
    simp [ht]
  rw [if_neg h1]
  by_cases h2 : c = 92
  · subst h2
    rw [if_pos rfl, List.cons_append, List.cons_append, List.nil_append,
      parseString.eq_def]
    simp [ht]
  rw [if_neg h2]
  by_cases h3 : c = 8
  · subst h3
    rw [if_pos rfl, List.cons_append, List.cons_append, List.nil_append,
      parseString.eq_def]
    simp [ht]
  rw [if_neg h3]
  by_cases h4 : c = 9
  · subst h4
    rw [if_pos rfl, List.cons_append, List.cons_append, List.nil_append,
      parseString.eq_def]
    simp [ht]
  rw [if_neg h4]
  by_cases h5 : c = 10
  · subst h5
    rw [if_pos rfl, List.cons_append, List.cons_append, List.nil_append,
      parseString.eq_def]
    simp [ht]
  rw [if_neg h5]
  by_cases h6 : c = 12
  · subst h6
    rw [if_pos rfl, List.cons_append, List.cons_append, List.nil_append,
      parseString.eq_def]
    simp [ht]
  rw [if_neg h6]
  by_cases h7 : c = 13
  · subst h7
    rw [if_pos rfl, List.cons_append, List.cons_append, List.nil_append,
      parseString.eq_def]
    simp [ht]
  rw [if_neg h7]
  by_cases h8 : c < 32
  · rw [if_pos h8]
    simpa [List.cons_append] using parseString_u c hc t v r ht
  rw [if_neg h8]
  by_cases h9 : 0xD800 ≤ c ∧ c ≤ 0xDFFF
  · rw [if_pos h9]
    simpa [List.cons_append] using parseString_u c hc t v r ht
  rw [if_neg h9]
  rw [List.cons_append, List.nil_append, parseString.eq_def]
  simp [h1, h2, h8, ht]

/-- Parsing the escape of a whole unit string up to the closing quote
recovers the string. -/
theorem parseString_escapeUnits : ∀ (s : List Nat), (∀ c ∈ s, c < 65536) →
    ∀ rest, parseString (escapeUnits s ++ 34 :: rest) = some (s, rest) := by
  intro s
  induction s using escapeUnits.induct with
  | case1 =>
    intro _ rest
    rw [escapeUnits, List.nil_append, parseString.eq_def]
    simp
  | case2 c =>
    intro h rest
    have hclose : parseString (34 :: rest) = some ([], rest) := by
      rw [parseString.eq_def]; simp
    have := parseString_escapeOne c (h c (by simp)) (34 :: rest) [] rest hclose
    simpa [escapeUnits] using this
  | case3 c c2 rest' hcond ih =>
    intro h rest
    have hc34 : ¬c = 34 := by omega
    have hc92 : ¬c = 92 := by omega
    have hc32 : ¬c < 32 := by omega
    have hd34 : ¬c2 = 34 := by omega
    have hd92 : ¬c2 = 92 := by omega
    have hd32 : ¬c2 < 32 := by omega
    have hih := ih (fun x hx => h x (by simp [hx])) rest
    rw [escapeUnits, if_pos hcond, List.cons_append, List.cons_append,
      parseString.eq_def]
    simp only [if_neg hc34, if_neg hc92, if_neg hc32]
    rw [parseString.eq_def]
    simp [hd34, hd92, hd32, hih]
  | case4 c c2 rest' hcond ih =>
    intro h rest
    have hih := ih (fun x hx => h x (by simp [hx])) rest
    rw [escapeUnits, if_neg hcond, List.append_assoc]
    exact parseString_escapeOne c (h c (by simp)) _ _ rest hih

/-- Parsing a serialised type value recovers its units. -/
theorem parseString_typeUnits (mt : MetaType) (r : List Nat) :
    parseString (typeUnits mt ++ 34 :: r) = some (typeUnits mt, r) := by
  cases mt <;>
    · simp only [typeUnits, List.cons_append, List.nil_append]
      repeat
        rw [parseString.eq_def]
        simp

/-- The name key never matches at the start of the mimeType fragment. -/
theorem dropLit_NAME_MIME (X : List Nat) : dropLit NAME_KEY (MIME_KEY ++ X) = none := by
  have h : (MIME_KEY ++ X).take NAME_KEY.length = MIME_KEY.take NAME_KEY.length :=
    List.take_append_of_le_length (by decide)
  rw [dropLit, h, if_neg (by decide)]

/-! #### Lemmas about UTF-8 -/

/-- Decoding steps over an ASCII byte. -/
theorem utf8d_ascii (b : Nat) (l : List Nat) (h : b < 0x80) :
    utf8Decode (b :: l) = b :: utf8Decode l := by
  match l with
  | [] => simp [utf8Decode, h]
  | [b2] => simp [utf8Decode, h]
  | [b2, b3] => simp [utf8Decode, h]
  | b2 :: b3 :: b4 :: t => simp [utf8Decode, h]

/-- Decoding steps over a well-formed two-byte sequence. -/
theorem utf8d_2 (b b2 : Nat) (l : List Nat) (hb : 0xC2 ≤ b ∧ b ≤ 0xDF)
    (h2 : 0x80 ≤ b2 ∧ b2 ≤ 0xBF) :
    utf8Decode (b :: b2 :: l) = ((b - 0xC0) * 64 + (b2 - 0x80)) :: utf8Decode l := by
  have hnb : ¬b < 0x80 := by omega
  have hc : utf8ContOk b2 = true := decide_eq_true h2
  match l with
  | [] => simp [utf8Decode, hnb, hb, hc]
  | [b3] => simp [utf8Decode, hnb, hb, hc]
  | b3 :: b4 :: t => simp [utf8Decode, hnb, hb, hc]

/-- Decoding steps over a well-formed three-byte sequence. -/
theorem utf8d_3 (b b2 b3 : Nat) (l : List Nat) (hb : 0xE0 ≤ b ∧ b ≤ 0xEF)
    (hl : utf8Lead3Ok b b2 = true) (h3 : utf8ContOk b3 = true) :
    utf8Decode (b :: b2 :: b3 :: l) =
      ((b - 0xE0) * 4096 + (b2 - 0x80) * 64 + (b3 - 0x80)) :: utf8Decode l := by
  have hnb : ¬b < 0x80 := by omega
  have hn2 : ¬(0xC2 ≤ b ∧ b ≤ 0xDF) := by omega
  match l with
  | [] => simp [utf8Decode, hnb, hn2, hb, hl, h3]
  | b4 :: t => simp [utf8Decode, hnb, hn2, hb, hl, h3]

/-- Decoding steps over a well-formed four-byte sequence. -/
theorem utf8d_4 (b b2 b3 b4 : Nat) (l : List Nat) (hb : 0xF0 ≤ b ∧ b ≤ 0xF4)
    (hl : utf8Lead4Ok b b2 = true) (h3 : utf8ContOk b3 = true)
    (h4 : utf8ContOk b4 = true) :
    utf8Decode (b :: b2 :: b3 :: b4 :: l) =
      cpToUnits ((b - 0xF0) * 262144 + (b2 - 0x80) * 4096 + (b3 - 0x80) * 64 +
        (b4 - 0x80)) ++ utf8Decode l := by
  have hnb : ¬b < 0x80 := by omega
  have hn2 : ¬(0xC2 ≤ b ∧ b ≤ 0xDF) := by omega
  have hn3 : ¬(0xE0 ≤ b ∧ b ≤ 0xEF) := by omega
  simp [utf8Decode, hnb, hn2, hn3, hb, hl, h3, h4]

/-- Decoding the UTF-8 bytes of a non-surrogate code point recovers its
UTF-16 units and continues with the rest of the stream. -/
theorem utf8Decode_utf8Char (cp : Nat) (l : List Nat)
    (h : cp < 0xD800 ∨ (0xE000 ≤ cp ∧ cp < 0x110000)) :
    utf8Decode (utf8Char cp ++ l) = cpToUnits cp ++ utf8Decode l := by
  by_cases h1 : cp < 0x80
  · rw [utf8Char, if_pos h1]
    simp only [List.cons_append, List.nil_append]
    rw [utf8d_ascii cp l h1, cpToUnits, if_pos (by omega)]
    simp
  by_cases h2 : cp < 0x800
  · rw [utf8Char, if_neg h1, if_pos h2]
    simp only [List.cons_append, List.nil_append]
    rw [utf8d_2 _ _ l (by omega) (by omega)]
    rw [cpToUnits, if_pos (by omega)]
    simp only [List.cons_append, List.nil_append, List.cons.injEq]
    exact ⟨by omega, trivial⟩
  by_cases h3 : cp < 0x10000
  · rw [utf8Char, if_neg h1, if_neg h2, if_pos h3]
    simp only [List.cons_append, List.nil_append]
    have hlead : utf8Lead3Ok (0xE0 + cp / 4096) (0x80 + cp / 64 % 64) = true := by
      simp only [utf8Lead3Ok, decide_eq_true_eq]
      omega
    rw [utf8d_3 _ _ _ l (by omega) hlead (by simp only [utf8ContOk, decide_eq_true_eq]; omega)]
    rw [cpToUnits, if_pos (by omega)]
    simp only [List.cons_append, List.nil_append, List.cons.injEq]
    exact ⟨by omega, trivial⟩
  · rw [utf8Char, if_neg h1, if_neg h2, if_neg h3]
    simp only [List.cons_append, List.nil_append]
    have hlead : utf8Lead4Ok (0xF0 + cp / 262144) (0x80 + cp / 4096 % 64) = true := by
      simp only [utf8Lead4Ok, decide_eq_true_eq]
      omega
    rw [utf8d_4 _ _ _ _ l (by omega) hlead
      (by simp only [utf8ContOk, decide_eq_true_eq]; omega)
      (by simp only [utf8ContOk, decide_eq_true_eq]; omega)]
    have hval : (0xF0 + cp / 262144 - 0xF0) * 262144 +
        (0x80 + cp / 4096 % 64 - 0x80) * 4096 + (0x80 + cp / 64 % 64 - 0x80) * 64 +
        (0x80 + cp % 64 - 0x80) = cp := by omega
    rw [hval]

/-- A unit outside the surrogate ranges and below 2^16 passes through the
well-formedness check. -/
theorem wf_cons_valid (c : Nat) (l : List Nat)
    (hc : c < 0xD800 ∨ (0xE000 ≤ c ∧ c < 0x10000)) :
    wellFormedUnits (c :: l) = wellFormedUnits l := by
  have hdc : decide (c < 0xD800 ∨ (0xE000 ≤ c ∧ c < 0x10000)) = true := decide_eq_true hc
  have hnh : ¬(0xD800 ≤ c ∧ c ≤ 0xDBFF) := by omega
  cases l with
  | nil => simp [wellFormedUnits, hdc]
  | cons c2 t => simp [wellFormedUnits, hnh, hdc]

/-- A surrogate pair passes through the well-formedness check. -/
theorem wf_pair (c c2 : Nat) (l : List Nat) (h1 : 0xD800 ≤ c ∧ c ≤ 0xDBFF)
    (h2 : 0xDC00 ≤ c2 ∧ c2 ≤ 0xDFFF) :
    wellFormedUnits (c :: c2 :: l) = wellFormedUnits l := by
  have hd : decide (0xDC00 ≤ c2 ∧ c2 ≤ 0xDFFF) = true := decide_eq_true h2
  simp [wellFormedUnits, h1, hd]

/-- Well-formedness is closed under concatenation. -/
theorem wf_append : ∀ a : List Nat, wellFormedUnits a = true →
    ∀ b : List Nat, wellFormedUnits b = true → wellFormedUnits (a ++ b) = true := by
  intro a
  induction a using wellFormedUnits.induct with
  | case1 =>
    intro _ b hb
    simpa using hb
  | case2 c =>
    intro ha b hb
    simp only [wellFormedUnits, decide_eq_true_eq] at ha
    rw [List.cons_append, List.nil_append, wf_cons_valid c b ha]
    exact hb
  | case3 c c2 rest hhigh ih =>
    intro ha b hb
    rw [wellFormedUnits, if_pos hhigh, Bool.and_eq_true] at ha
    rw [List.cons_append, List.cons_append,
      wf_pair c c2 (rest ++ b) hhigh (of_decide_eq_true ha.1)]
    exact ih ha.2 b hb
  | case4 c c2 rest hnh ih =>
    intro ha b hb
    rw [wellFormedUnits, if_neg hnh, Bool.and_eq_true] at ha
    rw [List.cons_append, wf_cons_valid c _ (of_decide_eq_true ha.1)]
    exact ih ha.2 b hb

/-- Lists of units below 128 are well formed. -/
theorem wf_of_lt128 : ∀ l : List Nat, (∀ c ∈ l, c < 128) →
    wellFormedUnits l = true := by
  intro l
  induction l with
  | nil => intro _; rfl
  | cons c t ih =>
    intro h
    rw [wf_cons_valid c t (Or.inl (by have := h c (by simp); omega))]
    exact ih (fun x hx => h x (by simp [hx]))

/-- The escape of one unit is well formed. -/
theorem wf_escapeOne (c : Nat) (hc : c < 65536) :
    wellFormedUnits (escapeOne c) = true := by
  have hhex : ∀ n, n < 16 → hexDigit n < 128 := by decide
  have hu : ∀ x : Nat, x < 65536 →
      wellFormedUnits (92 :: 117 :: hex4 x) = true := by
    intro x hx
    apply wf_of_lt128
    intro y hy
    simp only [hex4, List.mem_cons, List.not_mem_nil, or_false] at hy
    rcases hy with rfl | rfl | rfl | rfl | rfl | rfl
    · omega
    · omega
    · exact hhex _ (by omega)
    · exact hhex _ (by omega)
    · exact hhex _ (by omega)
    · exact hhex _ (by omega)
  unfold escapeOne
  by_cases h1 : c = 34
  · rw [if_pos h1]; decide
  rw [if_neg h1]
  by_cases h2 : c = 92
  · rw [if_pos h2]; decide
  rw [if_neg h2]
  by_cases h3 : c = 8
  · rw [if_pos h3]; decide
  rw [if_neg h3]
  by_cases h4 : c = 9
  · rw [if_pos h4]; decide
  rw [if_neg h4]
  by_cases h5 : c = 10
  · rw [if_pos h5]; decide
  rw [if_neg h5]
  by_cases h6 : c = 12
  · rw [if_pos h6]; decide
  rw [if_neg h6]
  by_cases h7 : c = 13
  · rw [if_pos h7]; decide
  rw [if_neg h7]
  by_cases h8 : c < 32
  · rw [if_pos h8]; exact hu c hc
  rw [if_neg h8]
  by_cases h9 : 0xD800 ≤ c ∧ c ≤ 0xDFFF
  · rw [if_pos h9]; exact hu c hc
  rw [if_neg h9]
  rw [wf_cons_valid c [] (by omega)]
  rfl

/-- The escape of a string of units below 2^16 is well formed. -/
theorem wf_escapeUnits : ∀ s : List Nat, (∀ c ∈ s, c < 65536) →
    wellFormedUnits (escapeUnits s) = true := by
  intro s
  induction s using escapeUnits.induct with
  | case1 => intro _; rfl
  | case2 c =>
    intro h
    rw [escapeUnits]
    exact wf_escapeOne c (h c (by simp))
  | case3 c c2 rest' hcond ih =>
    intro h
    rw [escapeUnits, if_pos hcond,
      wf_pair c c2 _ ⟨hcond.1, hcond.2.1⟩ ⟨hcond.2.2.1, hcond.2.2.2⟩]
    exact ih (fun x hx => h x (by simp [hx]))
  | case4 c c2 rest' hcond ih =>
    intro h
    rw [escapeUnits, if_neg hcond]
    exact wf_append _ (wf_escapeOne c (h c (by simp))) _
      (ih (fun x hx => h x (by simp [hx])))

/-- UTF-8 decoding inverts UTF-8 encoding on well-formed unit strings. -/
theorem utf8Decode_utf8Encode : ∀ u : List Nat, wellFormedUnits u = true →
    utf8Decode (utf8Encode u) = u := by
  intro u
  induction u using utf8Encode.induct with
  | case1 => intro _; rfl
  | case2 c =>
    intro hwf
    simp only [wellFormedUnits, decide_eq_true_eq] at hwf
    rw [utf8Encode, utf8One, if_neg (by omega)]
    rw [← List.append_nil (utf8Char c), utf8Decode_utf8Char c [] (by omega)]
    rw [cpToUnits, if_pos (by omega)]
    rfl
  | case3 c c2 rest hcond ih =>
    intro hwf
    rw [wf_pair c c2 rest ⟨hcond.1, hcond.2.1⟩ ⟨hcond.2.2.1, hcond.2.2.2⟩] at hwf
    rw [utf8Encode, if_pos hcond, utf8Decode_utf8Char _ _ (Or.inr (by omega))]
    rw [cpToUnits, if_neg (by omega), ih hwf]
    simp only [List.cons_append, List.nil_append, List.cons.injEq]
    exact ⟨by omega, by omega, trivial⟩
  | case4 c c2 rest hcond ih =>
    intro hwf
    by_cases hhigh : 0xD800 ≤ c ∧ c ≤ 0xDBFF
    · rw [wellFormedUnits, if_pos hhigh, Bool.and_eq_true] at hwf
      have hlow := of_decide_eq_true hwf.1
      exact absurd ⟨hhigh.1, hhigh.2, hlow.1, hlow.2⟩ hcond
    · rw [wellFormedUnits, if_neg hhigh, Bool.and_eq_true] at hwf
      have hvalid := of_decide_eq_true hwf.1
      rw [utf8Encode, if_neg hcond, utf8One, if_neg (by omega)]
      rw [utf8Decode_utf8Char c _ (by omega), cpToUnits, if_pos (by omega),
        ih hwf.2]
      rfl

/-! #### Parsing the serialised object -/

/-- The serialised timestamp parses when the name fragment follows. -/
theorem parseNumber_intUnits_NAME (ts : Int) (X : List Nat) :
    parseNumber (intUnits ts ++ (NAME_KEY ++ X)) = some (ts, NAME_KEY ++ X) :=
  parseNumber_intUnits ts _ (by simp [NAME_KEY])

/-- The serialised timestamp parses when the mimeType fragment follows. -/
theorem parseNumber_intUnits_MIME (ts : Int) (X : List Nat) :
    parseNumber (intUnits ts ++ (MIME_KEY ++ X)) = some (ts, MIME_KEY ++ X) :=
  parseNumber_intUnits ts _ (by simp [MIME_KEY])

/-- The serialised timestamp parses when the closing brace follows. -/
theorem parseNumber_intUnits_close (ts : Int) :
    parseNumber (intUnits ts ++ [125]) = some (ts, [125]) :=
  parseNumber_intUnits ts _ (by simp)

/-- A serialised integer starts with a minus sign or a digit. -/
theorem intUnits_head (n : Int) :
    ∃ d t, intUnits n = d :: t ∧ (d = 45 ∨ (48 ≤ d ∧ d ≤ 57)) := by
  unfold intUnits
  by_cases hn : n < 0
  · rw [if_pos hn]
    exact ⟨45, natDigits n.natAbs, rfl, Or.inl rfl⟩
  · rw [if_neg hn]
    cases hnd : natDigits n.toNat with
    | nil => exact absurd hnd (natDigitsAux_ne_nil _ _)
    | cons d t =>
      refine ⟨d, t, rfl, Or.inr ?_⟩
      exact natDigitsAux_mem _ _ d (hnd ▸ List.mem_cons_self d t)

/-- The literal `null` never matches at the start of a serialised integer. -/
theorem dropLit_null_intUnits (n : Int) (rest : List Nat) :
    dropLit NULL_UNITS (intUnits n ++ rest) = none := by
  obtain ⟨d, t, hdt, hd⟩ := intUnits_head n
  rw [hdt, List.cons_append, dropLit, if_neg]
  intro h
  have ht : (d :: (t ++ rest)).take NULL_UNITS.length = d :: (t ++ rest).take 3 :=
    rfl
  rw [ht] at h
  simp only [NULL_UNITS, List.cons.injEq] at h
  omega

/-- The serialised finite timestamp parses as a number when the name fragment
follows. -/
theorem parseTs_NAME (ts : Int) (X : List Nat) :
    parseTsValue (intUnits ts ++ (NAME_KEY ++ X)) = some (some ts, NAME_KEY ++ X) := by
  simp only [parseTsValue, dropLit_null_intUnits, parseNumber_intUnits_NAME,
    Option.map_some']

/-- The serialised finite timestamp parses as a number when the mimeType
fragment follows. -/
theorem parseTs_MIME (ts : Int) (X : List Nat) :
    parseTsValue (intUnits ts ++ (MIME_KEY ++ X)) = some (some ts, MIME_KEY ++ X) := by
  simp only [parseTsValue, dropLit_null_intUnits, parseNumber_intUnits_MIME,
    Option.map_some']

/-- The serialised finite timestamp parses as a number when the closing brace
follows. -/
theorem parseTs_close (ts : Int) :
    parseTsValue (intUnits ts ++ [125]) = some (some ts, [125]) := by
  simp only [parseTsValue, dropLit_null_intUnits, parseNumber_intUnits_close,
    Option.map_some']

/-- `JSON.parse` of the serialised metadata object recovers the record when
the timestamp is finite. -/
theorem jsonParseMeta_jsonOfMeta (m : PayloadMetadata) (n : Int)
    (hts : m.timestamp = JSNum.int n)
    (hn : ∀ s, m.name = some s → ∀ c ∈ s, c < 65536)
    (hm : ∀ s, m.mimeType = some s → ∀ c ∈ s, c < 65536) :
    jsonParseMeta (jsonOfMeta m) =
      some ⟨typeUnits m.type, some n, m.name, m.mimeType⟩ := by
  obtain ⟨mt, ts, nm, mm⟩ := m
  simp only at hts
  subst hts
  have hd125 : dropLit [125] [125] = some [] := by decide
  have hdN125 : dropLit NAME_KEY [125] = none := by decide
  have hdM125 : dropLit MIME_KEY [125] = none := by decide
  cases nm with
  | some ns =>
    have hpn := parseString_escapeUnits ns (hn ns rfl)
    cases mm with
    | some ms =>
      have hpm := parseString_escapeUnits ms (hm ms rfl)
      simp only [jsonOfMeta, tsUnits, List.append_assoc, List.singleton_append,
        List.cons_append, List.nil_append, List.append_nil]
      simp only [jsonParseMeta, dropLit_append]
      rw [parseString_typeUnits]
      simp only [List.nil_append, dropLit_append]
      rw [parseTs_NAME]
      simp only [List.nil_append, parseOptStr, dropLit_append]
      rw [hpn]
      simp only [List.nil_append, parseOptStr, dropLit_append]
      rw [hpm]
      simp only [List.nil_append, hd125]
      rfl
    | none =>
      simp only [jsonOfMeta, tsUnits, List.append_assoc, List.singleton_append,
        List.cons_append, List.nil_append, List.append_nil]
      simp only [jsonParseMeta, dropLit_append]
      rw [parseString_typeUnits]
      simp only [List.nil_append, dropLit_append]
      rw [parseTs_NAME]
      simp only [List.nil_append, parseOptStr, dropLit_append]
      rw [hpn]
      simp only [List.nil_append, parseOptStr, hdM125, hd125]
      rfl
  | none =>
    cases mm with
    | some ms =>
      have hpm := parseString_escapeUnits ms (hm ms rfl)
      simp only [jsonOfMeta, tsUnits, List.append_assoc, List.singleton_append,
        List.cons_append, List.nil_append, List.append_nil]
      simp only [jsonParseMeta, dropLit_append]
      rw [parseString_typeUnits]
      simp only [List.nil_append, dropLit_append]
      rw [parseTs_MIME]
      simp only [List.nil_append, parseOptStr, dropLit_NAME_MIME, dropLit_append]
      rw [hpm]
      simp only [List.nil_append, hd125]
      rfl
    | none =>
      simp only [jsonOfMeta, tsUnits, List.append_assoc, List.singleton_append,
        List.cons_append, List.nil_append, List.append_nil]
      simp only [jsonParseMeta, dropLit_append]
      rw [parseString_typeUnits]
      simp only [List.nil_append, dropLit_append]
      rw [parseTs_close]
      simp only [List.nil_append, parseOptStr, hdN125, hdM125, hd125]
      rfl

/-! #### Well-formedness of the serialised object -/

/-- The UTF-8 bytes of any code point form a nonempty list. -/
theorem utf8Char_ne_nil (cp : Nat) : utf8Char cp ≠ [] := by
  unfold utf8Char
  by_cases h1 : cp < 0x80
  · simp [h1]
  by_cases h2 : cp < 0x800
  · simp [h1, h2]
  by_cases h3 : cp < 0x10000
  · simp [h1, h2, h3]
  · simp [h1, h2, h3]

/-- Encoding a nonempty unit list yields a nonempty byte list. -/
theorem utf8Encode_cons_ne_nil (c : Nat) (rest : List Nat) :
    utf8Encode (c :: rest) ≠ [] := by
  cases rest with
  | nil =>
    rw [utf8Encode, utf8One]
    by_cases h : 0xD800 ≤ c ∧ c ≤ 0xDFFF
    · rw [if_pos h]; exact utf8Char_ne_nil _
    · rw [if_neg h]; exact utf8Char_ne_nil _
  | cons c2 t =>
    rw [utf8Encode]
    by_cases h : 0xD800 ≤ c ∧ c ≤ 0xDBFF ∧ 0xDC00 ≤ c2 ∧ c2 ≤ 0xDFFF
    · rw [if_pos h]
      simp [utf8Char_ne_nil]
    · rw [if_neg h, utf8One]
      by_cases h2 : 0xD800 ≤ c ∧ c ≤ 0xDFFF
      · rw [if_pos h2]; simp [utf8Char_ne_nil]
      · rw [if_neg h2]; simp [utf8Char_ne_nil]

/-- The serialised type value is well formed. -/
theorem wf_typeUnits (mt : MetaType) : wellFormedUnits (typeUnits mt) = true := by
  cases mt <;> decide

/-- A serialised finite timestamp is well formed. -/
theorem wf_intUnits (ts : Int) : wellFormedUnits (intUnits ts) = true := by
  apply wf_of_lt128
  intro c hc
  unfold intUnits at hc
  by_cases hn : ts < 0
  · rw [if_pos hn] at hc
    rcases List.mem_cons.mp hc with rfl | hc
    · omega
    · have := natDigitsAux_mem _ _ c hc
      omega
  · rw [if_neg hn] at hc
    have := natDigitsAux_mem _ _ c hc
    omega

/-- Every serialised timestamp value is well formed. -/
theorem wf_tsUnits (ts : JSNum) : wellFormedUnits (tsUnits ts) = true := by
  cases ts with
  | int n => exact wf_intUnits n
  | nan => decide
  | inf => decide
  | negInf => decide

/-- The whole serialised metadata object is well formed. -/
theorem wf_jsonOfMeta (m : PayloadMetadata)
    (hn : ∀ s, m.name = some s → ∀ c ∈ s, c < 65536)
    (hm : ∀ s, m.mimeType = some s → ∀ c ∈ s, c < 65536) :
    wellFormedUnits (jsonOfMeta m) = true := by
  obtain ⟨mt, ts, nm, mm⟩ := m
  have hopen : wellFormedUnits OPEN_TYPE = true := by decide
  have h34 : wellFormedUnits [34] = true := by decide
  have htsk : wellFormedUnits TS_KEY = true := by decide
  have hnk : wellFormedUnits NAME_KEY = true := by decide
  have hmk : wellFormedUnits MIME_KEY = true := by decide
  have hcl : wellFormedUnits [125] = true := by decide
  have hpre : wellFormedUnits
      (OPEN_TYPE ++ typeUnits mt ++ [34] ++ TS_KEY ++ tsUnits ts) = true :=
    wf_append _ (wf_append _ (wf_append _
      (wf_append _ hopen _ (wf_typeUnits mt)) _ h34) _ htsk) _ (wf_tsUnits ts)
  cases nm with
  | some s =>
    have hnf : wellFormedUnits (NAME_KEY ++ escapeUnits s ++ [34]) = true :=
      wf_append _ (wf_append _ hnk _ (wf_escapeUnits s (hn s rfl))) _ h34
    cases mm with
    | some s2 =>
      have hmf : wellFormedUnits (MIME_KEY ++ escapeUnits s2 ++ [34]) = true :=
        wf_append _ (wf_append _ hmk _ (wf_escapeUnits s2 (hm s2 rfl))) _ h34
      simp only [jsonOfMeta]
      exact wf_append _ (wf_append _ (wf_append _ hpre _ hnf) _ hmf) _ hcl
    | none =>
      simp only [jsonOfMeta]
      exact wf_append _ (wf_append _ (wf_append _ hpre _ hnf) _
        (rfl : wellFormedUnits [] = true)) _ hcl
  | none =>
    cases mm with
    | some s2 =>
      have hmf : wellFormedUnits (MIME_KEY ++ escapeUnits s2 ++ [34]) = true :=
        wf_append _ (wf_append _ hmk _ (wf_escapeUnits s2 (hm s2 rfl))) _ h34
      simp only [jsonOfMeta]
      exact wf_append _ (wf_append _ (wf_append _ hpre _
        (rfl : wellFormedUnits [] = true)) _ hmf) _ hcl
    | none =>
      simp only [jsonOfMeta]
      exact wf_append _ (wf_append _ (wf_append _ hpre _
        (rfl : wellFormedUnits [] = true)) _
        (rfl : wellFormedUnits [] = true)) _ hcl

/-- Reading back the little-endian metadata length of a packed buffer. -/
theorem readLeU32_pack (n : Nat) (hn : n < 4294967296) (rest : List Nat) :
    readLeU32 (1 :: (leU32 n ++ rest)) 1 = n := by
  simp only [readLeU32, leU32, List.cons_append, List.getD_cons_succ,
    List.getD_cons_zero]
  omega

/-! ### Claim C9 -/

/-- Claim C9, amended: for every payload byte list and every metadata record
over JS strings (UTF-16 units below 2^16) whose timestamp is a FINITE number
and whose sanitised serialisation packs successfully (at most 10240 metadata
bytes), unpacking the packed buffer succeeds and returns the payload
byte-for-byte together with the sanitised metadata: the type as given, a
truthy name truncated to 255 units with the characters of the class
`[<>:"/\\|?*\u0000-\u001f]` replaced by `_`, and a truthy mimeType truncated
to 100 units.  A non-finite timestamp (`NaN`, `±Infinity`) breaks the round
trip: it serialises as `null` and the unpacker's schema check rejects it. -/
theorem C9_pack_unpack_roundtrip (D : List Nat) (m : PayloadMetadata) (now : Int)
    (out : List Nat) (n : Int)
    (hts : m.timestamp = JSNum.int n)
    (hn : ∀ s, m.name = some s → ∀ c ∈ s, c < 65536)
    (hm : ∀ s, m.mimeType = some s → ∀ c ∈ s, c < 65536)
    (hok : packPayload D m = .ok out) :
    unpackPayload now out = .ok ⟨D, sanitizeMeta m⟩ := by
  have hts2 : (sanitizeMeta m).timestamp = JSNum.int n := by
    rw [show (sanitizeMeta m).timestamp = m.timestamp from rfl, hts]
  have hsn : ∀ s, (sanitizeMeta m).name = some s →
      s ≠ [] ∧ (∀ c ∈ s, c < 65536) ∧ sanitizeName s = s := by
    intro s hs
    simp only [sanitizeMeta] at hs
    cases hnm : m.name with
    | none => simp only [hnm] at hs; cases hs
    | some s0 =>
      simp only [hnm] at hs
      by_cases h0 : s0 = []
      · rw [if_neg (by simp [h0])] at hs
        cases hs
      · rw [if_pos h0] at hs
        obtain rfl : s = sanitizeName s0 := by simpa using hs.symm
        exact ⟨sanitizeName_ne_nil s0 h0, sanitizeName_lt s0 (hn s0 hnm),
          sanitizeName_idem s0⟩
  have hsm : ∀ s, (sanitizeMeta m).mimeType = some s → ∀ c ∈ s, c < 65536 := by
    intro s hs
    simp only [sanitizeMeta] at hs
    cases hmm : m.mimeType with
    | none => simp only [hmm] at hs; cases hs
    | some s0 =>
      simp only [hmm] at hs
      by_cases h0 : s0 = []
      · rw [if_neg (by simp [h0])] at hs
        cases hs
      · rw [if_pos h0] at hs
        obtain rfl : s = s0.take 100 := by simpa using hs.symm
        exact fun c hc => hm s0 hmm c (List.mem_of_mem_take hc)
  have hwf : wellFormedUnits (jsonOfMeta (sanitizeMeta m)) = true :=
    wf_jsonOfMeta (sanitizeMeta m) (fun s hs => ((hsn s hs).2).1) hsm
  simp only [packPayload] at hok
  obtain ⟨MB, hMBdef⟩ : ∃ MB, utf8Encode (jsonOfMeta (sanitizeMeta m)) = MB :=
    ⟨_, rfl⟩
  rw [hMBdef] at hok
  by_cases hlen : MB.length > 10240
  · rw [if_pos hlen] at hok
    cases hok
  rw [if_neg hlen] at hok
  obtain rfl : out = [1] ++ leU32 MB.length ++ MB ++ D := by
    cases hok
    rfl
  have hne : MB ≠ [] := by
    rw [← hMBdef]
    cases hj : jsonOfMeta (sanitizeMeta m) with
    | nil =>
      exact absurd hj (by rw [jsonOfMeta]; simp [OPEN_TYPE])
    | cons c t => exact utf8Encode_cons_ne_nil c t
  have hLpos : 0 < MB.length := List.length_pos.mpr hne
  have hbuf : [1] ++ leU32 MB.length ++ MB ++ D =
      1 :: (leU32 MB.length ++ (MB ++ D)) := by
    simp [List.append_assoc]
  rw [hbuf]
  have hL : readLeU32 (1 :: (leU32 MB.length ++ (MB ++ D))) 1 = MB.length :=
    readLeU32_pack MB.length (by omega) (MB ++ D)
  have hlength : (1 :: (leU32 MB.length ++ (MB ++ D))).length =
      5 + MB.length + D.length := by
    simp [leU32]
    omega
  rw [unpackPayload]
  rw [if_neg (by rw [hlength]; omega)]
  rw [if_neg (by simp)]
  simp only [hL]
  rw [if_neg (by omega)]
  rw [if_neg (by rw [hlength]; omega)]
  have hdrop5 : (1 :: (leU32 MB.length ++ (MB ++ D))).drop 5 = MB ++ D := by
    simp [leU32]
  have hmeta : ((1 :: (leU32 MB.length ++ (MB ++ D))).drop 5).take MB.length = MB := by
    rw [hdrop5]
    exact List.take_left MB D
  have hdec : utf8Decode MB = jsonOfMeta (sanitizeMeta m) := by
    rw [← hMBdef]
    exact utf8Decode_utf8Encode _ hwf
  rw [hmeta, hdec]
  rw [jsonParseMeta_jsonOfMeta (sanitizeMeta m) n hts2
    (fun s hs => ((hsn s hs).2).1) hsm]
  have hvalid : isValidMetadata ⟨typeUnits (sanitizeMeta m).type,
      some n, (sanitizeMeta m).name,
      (sanitizeMeta m).mimeType⟩ = true := by
    cases (sanitizeMeta m).type <;> simp [isValidMetadata, typeUnits]
  have hdata : (1 :: (leU32 MB.length ++ (MB ++ D))).drop (5 + MB.length) = D := by
    have hdd : List.drop MB.length
        (List.drop 5 (1 :: (leU32 MB.length ++ (MB ++ D)))) =
        List.drop (5 + MB.length) (1 :: (leU32 MB.length ++ (MB ++ D))) :=
      List.drop_drop _ _ _
    rw [← hdd, hdrop5]
    exact List.drop_left MB D
  have htype : metaTypeOfUnits (typeUnits (sanitizeMeta m).type) =
      (sanitizeMeta m).type := by
    cases (sanitizeMeta m).type <;> decide
  simp only [hvalid, if_true, hdata, htype, tsOfParsed]
  cases hnm : (sanitizeMeta m).name with
  | none =>
    simp only [hnm]
    rw [← hts2, ← hnm]
  | some s =>
    obtain ⟨hs1, _, hs3⟩ := hsn s hnm
    simp only [hnm, if_neg hs1, hs3]
    rw [← hts2, ← hnm]

/-- Witness for C9: packing payload `[1, 2, 3]` with text metadata
(timestamp 42, name `a`) and unpacking the resulting 49-byte buffer returns
the payload and the sanitised metadata. -/
theorem C9_witness :
    unpackPayload 0
      [1, 41, 0, 0, 0, 123, 34, 116, 121, 112, 101, 34, 58, 34, 116, 101, 120,
        116, 34, 44, 34, 116, 105, 109, 101, 115, 116, 97, 109, 112, 34, 58, 52,
        50, 44, 34, 110, 97, 109, 101, 34, 58, 34, 97, 34, 125, 1, 2, 3] =
      .ok ⟨[1, 2, 3],
        sanitizeMeta ⟨MetaType.text, JSNum.int 42, some [97], none⟩⟩ :=
  C9_pack_unpack_roundtrip [1, 2, 3]
    ⟨MetaType.text, JSNum.int 42, some [97], none⟩ 0 _ 42 rfl
    (fun s hs => by injection hs with h; subst h; decide)
    (fun s hs => by cases hs)
    (by rfl)

/-- Counterexample to the literal claim C9: a metadata record whose timestamp
is the JS number `NaN` packs successfully (its sanitised JSON is the 43-byte
object with `"timestamp":null`, far below 10240), yet unpacking the packed
buffer throws `Invalid payload format`: the schema check rejects the `null`
timestamp.  The same happens for `±Infinity`. -/
theorem C9_counterexample :
    packPayload [1, 2, 3] ⟨MetaType.text, JSNum.nan, some [97], none⟩ =
      .ok [1, 43, 0, 0, 0, 123, 34, 116, 121, 112, 101, 34, 58, 34, 116, 101,
        120, 116, 34, 44, 34, 116, 105, 109, 101, 115, 116, 97, 109, 112, 34,
        58, 110, 117, 108, 108, 44, 34, 110, 97, 109, 101, 34, 58, 34, 97, 34,
        125, 1, 2, 3] ∧
    unpackPayload 0
      [1, 43, 0, 0, 0, 123, 34, 116, 121, 112, 101, 34, 58, 34, 116, 101,
        120, 116, 34, 44, 34, 116, 105, 109, 101, 115, 116, 97, 109, 112, 34,
        58, 110, 117, 108, 108, 44, 34, 110, 97, 109, 101, 34, 58, 34, 97, 34,
        125, 1, 2, 3] = .error "Invalid payload format" :=
  ⟨by rfl, by rfl⟩

/-! ### Claim C2 -/

/-- Every error of the pure unframing phase is the uniform decrypt error. -/
theorem parseEnvelope_error (data : List Nat) (e : String)
    (h : parseEnvelope data = .error e) : e = GENERIC_ERROR := by
  simp only [parseEnvelope] at h
  split_ifs at h <;> (try cases h) <;> rfl

/-- Claim C2 (corrected): the worker's decrypt handler either succeeds or
fails with the single uniform message — wrong password, truncation,
tampering, salt-length and length-bound violations, and decompression
failures are indistinguishable — but the payload-unpacking layer is outside
that guarantee: `unpackPayload` either succeeds or throws
`Invalid payload format`, a different string, and the decode page catches it
separately. -/
theorem C2_uniform_decrypt_error :
    (∀ (dec : Bool → List Nat → List Nat → List Nat → Option (List Nat))
        (inflate : List Nat → Option (List Nat)) (data : List Nat),
      (∃ r, handleDecrypt dec inflate data = .ok r) ∨
        handleDecrypt dec inflate data = .error GENERIC_ERROR) ∧
    (∀ (now : Int) (buffer : List Nat),
      (∃ r, unpackPayload now buffer = .ok r) ∨
        unpackPayload now buffer = .error "Invalid payload format") ∧
    GENERIC_ERROR ≠ "Invalid payload format" := by
  refine ⟨?_, ?_, by decide⟩
  · intro dec inflate data
    cases hpe : parseEnvelope data with
    | error e =>
      right
      rw [parseEnvelope_error data e hpe] at hpe
      simp only [handleDecrypt, hpe]
    | ok env =>
      cases hdec : dec env.isHighSecurity env.salt env.iv env.encryptedData with
      | none =>
        right
        simp only [handleDecrypt, hpe, hdec]
      | some pt =>
        by_cases hc : env.isCompressed = true
        · cases hinf : inflate pt with
          | none =>
            right
            simp only [handleDecrypt, hpe, hdec, if_pos hc, hinf]
          | some r =>
            left
            exact ⟨r, by simp only [handleDecrypt, hpe, hdec, if_pos hc, hinf]⟩
        · left
          exact ⟨pt, by simp only [handleDecrypt, hpe, hdec, if_neg hc]⟩
  · intro now buffer
    simp only [unpackPayload]
    by_cases h5 : buffer.length < 5
    · right
      rw [if_pos h5]
    rw [if_neg h5]
    by_cases hv : buffer.getD 0 0 ≠ 1
    · left
      exact ⟨_, by rw [if_pos hv]⟩
    rw [if_neg hv]
    by_cases hm1 : readLeU32 buffer 1 = 0 ∨ readLeU32 buffer 1 > 10240
    · right
      rw [if_pos hm1]
    rw [if_neg hm1]
    by_cases hm2 : 5 + readLeU32 buffer 1 > buffer.length
    · right
      rw [if_pos hm2]
    rw [if_neg hm2]
    cases hj : jsonParseMeta (utf8Decode ((buffer.drop 5).take (readLeU32 buffer 1))) with
    | none =>
      right
      simp only [hj]
    | some raw =>
      by_cases hv2 : isValidMetadata raw = true
      · left
        exact ⟨_, by simp only [hj, if_pos hv2]; rfl⟩
      · right
        simp only [hj, if_neg hv2]

/-- Counterexample to the literal reading of C2: a payload buffer with
version 1 and metadata length 0 makes `unpackPayload` throw
`Invalid payload format`, which differs from the uniform decrypt message the
claim promises for unpacking-bounds and metadata failures. -/
theorem C2_counterexample :
    unpackPayload 0 [1, 0, 0, 0, 0] = .error "Invalid payload format" ∧
      "Invalid payload format" ≠ GENERIC_ERROR :=
  ⟨by rfl, by decide⟩

end StegCrypt
